import Mathlib

/-! url-metadata-go: metadata extraction and URL resolution

A shallow embedding of `parser.go` and `metadata.go`.

* Go strings are modelled by `String`; the library functions of package
  `strings` that the code calls (`HasPrefix`, `Split`, `SplitN`, `TrimSpace`)
  are defined on the character list of a string, following their documented
  behaviour.
* A parsed document (`*html.Node` with its `FirstChild`/`NextSibling` chain)
  is a finite tree: a node carries its type, data, attributes and the list of
  its children in sibling order.
* A `*Metadata` that a function mutates is passed in and returned.
* A Go slice that may be `nil` (`Keywords`) is an `Option`: `none` is `nil`.
-/

namespace UrlMetadata

/-! ## Package `strings` -/

namespace strings

/-- HasPrefix reports whether `s` begins with `pre`. -/
def HasPrefix (s pre : String) : Bool :=
  pre.data.isPrefixOf s.data

/-- Cut a character list at the first occurrence of `sep`: the part before it
and the part after it, or `none` when `sep` does not occur. -/
def cutAt (sep : Char) : List Char → Option (List Char × List Char)
  | [] => none
  | c :: cs =>
    if c = sep then some ([], cs)
    else match cutAt sep cs with
      | none => none
      | some (a, b) => some (c :: a, b)

/-- The loop of Go's `genSplit` for a one-character separator: at most `n`
pieces are produced, the last one being the unsplit remainder. -/
def genSplit (sep : Char) : Nat → List Char → List (List Char)
  | 0, _ => []
  | 1, s => [s]
  | n + 2, s =>
    match cutAt sep s with
    | none => [s]
    | some (a, rest) => a :: genSplit sep (n + 1) rest

/-- SplitN with a one-character separator and a positive count `n`: the
string is cut at the first `n - 1` separators. -/
def SplitN (s : String) (sep : Char) (n : Nat) : List String :=
  (genSplit sep n s.data).map String.mk

/-- Split with a one-character separator: all pieces between separators
(`genSplit` with the count `Count(s, sep) + 1`). -/
def Split (s : String) (sep : Char) : List String :=
  (genSplit sep (s.data.count sep + 1) s.data).map String.mk

/-- The white space characters of Go's `unicode.IsSpace`. -/
def isSpace (c : Char) : Bool :=
  let n := c.toNat
  (9 ≤ n && n ≤ 13) || n = 0x20 || n = 0x85 || n = 0xA0 || n = 0x1680 ||
  (0x2000 ≤ n && n ≤ 0x200A) || n = 0x2028 || n = 0x2029 || n = 0x202F ||
  n = 0x205F || n = 0x3000

/-- TrimSpace removes all leading and trailing white space. -/
def TrimSpace (s : String) : String :=
  String.mk ((s.data.dropWhile isSpace).reverse.dropWhile isSpace).reverse

end strings

/-! ## Data model -/

/-- The node types of `golang.org/x/net/html`. -/
inductive NodeType where
  | ErrorNode | TextNode | DocumentNode | ElementNode | CommentNode
  | DoctypeNode | RawNode
  deriving DecidableEq, Repr

/-- An attribute of an element: `html.Attribute`. -/
structure Attribute where
  Namespace : String
  Key : String
  Val : String
  deriving DecidableEq, Repr

/-- A node of the parsed document with the list of its children. -/
inductive Node where
  | mk (Typ : NodeType) (Data : String) (Attr : List Attribute)
      (children : List Node)

namespace Node

/-- Field `Type` of `html.Node`. -/
def Typ : Node → NodeType
  | mk t _ _ _ => t

/-- Field `Data` of `html.Node`. -/
def Data : Node → String
  | mk _ d _ _ => d

/-- Field `Attr` of `html.Node`. -/
def Attr : Node → List Attribute
  | mk _ _ a _ => a

/-- The chain `FirstChild`, `NextSibling`, ... of `html.Node`. -/
def children : Node → List Node
  | mk _ _ _ cs => cs

end Node

/-- Struct `Metadata` (field `Type` is `Typ` here). -/
structure Metadata where
  URL : String := ""
  Title : String := ""
  Description : String := ""
  SiteName : String := ""
  ImageURL : String := ""
  FaviconURL : String := ""
  Typ : String := ""
  Author : String := ""
  Keywords : Option (List String) := none
  Language : String := ""
  deriving DecidableEq, Repr

/-! ## `parser.go` -/

/-- The variables `property`, `name`, `content` of the meta branch. -/
structure MetaVars where
  property : String := ""
  name : String := ""
  content : String := ""
  deriving DecidableEq, Repr

/-- One iteration of `for _, attr := range n.Attr` in the meta branch. -/
def metaAttrStep (v : MetaVars) (attr : Attribute) : MetaVars :=
  if attr.Key = "property" then { v with property := attr.Val }
  else if attr.Key = "name" then { v with name := attr.Val }
  else if attr.Key = "content" then { v with content := attr.Val }
  else v

/-- The attribute loop of the meta branch. -/
def metaAttrs (attrs : List Attribute) : MetaVars :=
  attrs.foldl metaAttrStep {}

/-- The variables `rel`, `href` of the link branch. -/
structure LinkVars where
  rel : String := ""
  href : String := ""
  deriving DecidableEq, Repr

/-- One iteration of `for _, attr := range n.Attr` in the link branch. -/
def linkAttrStep (v : LinkVars) (attr : Attribute) : LinkVars :=
  if attr.Key = "rel" then { v with rel := attr.Val }
  else if attr.Key = "href" then { v with href := attr.Val }
  else v

/-- The attribute loop of the link branch. -/
def linkAttrs (attrs : List Attribute) : LinkVars :=
  attrs.foldl linkAttrStep {}

/-- The statement `switch property` of `extractMetaTags`. -/
def switchProperty (property content : String) (m : Metadata) : Metadata :=
  if property = "og:title" then { m with Title := content }
  else if property = "og:description" then { m with Description := content }
  else if property = "og:image" then { m with ImageURL := content }
  else if property = "og:site_name" then { m with SiteName := content }
  else if property = "og:type" then { m with Typ := content }
  else m

/-- The keywords of a content string: split on "," and trim each piece. -/
def splitKeywords (content : String) : List String :=
  (strings.Split content ',').map strings.TrimSpace

/-- The statement `switch name` of `extractMetaTags`. -/
def switchName (name content : String) (m : Metadata) : Metadata :=
  if name = "description" then
    if m.Description = "" then { m with Description := content } else m
  else if name = "author" then { m with Author := content }
  else if name = "keywords" then
    if content ≠ "" then { m with Keywords := some (splitKeywords content) }
    else m
  else if name = "language" then { m with Language := content }
  else m

/-- The body `if n.Data == "meta"` of `extractMetaTags`. -/
def metaBranch (attrs : List Attribute) (m : Metadata) : Metadata :=
  let v := metaAttrs attrs
  switchName v.name v.content (switchProperty v.property v.content m)

/-- The body `if n.Data == "link"` of `extractMetaTags`. -/
def linkBranch (attrs : List Attribute) (m : Metadata) : Metadata :=
  let v := linkAttrs attrs
  if (v.rel = "icon" ∨ v.rel = "shortcut icon") ∧ m.FaviconURL = "" then
    { m with FaviconURL := v.href }
  else m

/-- The part of `extractMetaTags` that looks at the node itself, before the
loop over the children. -/
def visitNode (ty : NodeType) (data : String) (attrs : List Attribute)
    (m : Metadata) : Metadata :=
  if ty = NodeType.ElementNode then
    let m1 := if data = "meta" then metaBranch attrs m else m
    if data = "link" then linkBranch attrs m1 else m1
  else m

mutual
/-- Function `extractMetaTags` of parser.go. -/
def extractMetaTags : Node → Metadata → Metadata
  | .mk ty data attrs cs, m => extractMetaTagsLoop cs (visitNode ty data attrs m)
/-- The loop `for c := n.FirstChild; c != nil; c = c.NextSibling` of
`extractMetaTags`. -/
def extractMetaTagsLoop : List Node → Metadata → Metadata
  | [], m => m
  | c :: cs, m => extractMetaTagsLoop cs (extractMetaTags c m)
end

/-- The test on the first child in `extractTitle`: the data of `n.FirstChild`
when it exists and is a text node. -/
def firstChildText : List Node → Option String
  | [] => none
  | c :: _ => if c.Typ = NodeType.TextNode then some c.Data else none

mutual
/-- Function `extractTitle` of parser.go. -/
def extractTitle : Node → String
  | .mk ty data _ cs =>
    if ty = NodeType.ElementNode ∧ data = "title" then
      match firstChildText cs with
      | some t => t
      | none => extractTitleLoop cs
    else extractTitleLoop cs
/-- The loop over the children in `extractTitle`: the first non-empty
result. -/
def extractTitleLoop : List Node → String
  | [] => ""
  | c :: cs =>
    let title := extractTitle c
    if title ≠ "" then title else extractTitleLoop cs
end

mutual
/-- Function `extractFavicon` of parser.go. -/
def extractFavicon : Node → String
  | .mk ty data attrs cs =>
    if ty = NodeType.ElementNode ∧ data = "link" then
      let v := linkAttrs attrs
      if v.rel = "icon" ∨ v.rel = "shortcut icon" then v.href
      else extractFaviconLoop cs
    else extractFaviconLoop cs
/-- The loop over the children in `extractFavicon`: the first non-empty
result. -/
def extractFaviconLoop : List Node → String
  | [] => ""
  | c :: cs =>
    let favicon := extractFavicon c
    if favicon ≠ "" then favicon else extractFaviconLoop cs
end

/-- Function `extractMetadata` of parser.go. -/
def extractMetadata (n : Node) (metadata : Metadata) : Metadata :=
  let m1 := extractMetaTags n metadata
  let m2 := if m1.Title = "" then { m1 with Title := extractTitle n } else m1
  if m2.FaviconURL = "" then { m2 with FaviconURL := extractFavicon n } else m2

/-! ## `metadata.go` -/

/-- Function `resolveURL` of metadata.go. -/
def resolveURL (baseURL relURL : String) : String :=
  if strings.HasPrefix relURL "/" then
    match strings.SplitN baseURL '/' 4 with
    | p0 :: _ :: p2 :: _ => p0 ++ "//" ++ p2 ++ relURL
    | _ => relURL
  else relURL

/-- Method `resolveRelativeURLs` of metadata.go. -/
def resolveRelativeURLs (baseURL : String) (m : Metadata) : Metadata :=
  let m1 :=
    if m.ImageURL ≠ "" ∧ ¬ strings.HasPrefix m.ImageURL "http" then
      { m with ImageURL := resolveURL baseURL m.ImageURL }
    else m
  if m1.FaviconURL ≠ "" ∧ ¬ strings.HasPrefix m1.FaviconURL "http" then
    { m1 with FaviconURL := resolveURL baseURL m1.FaviconURL }
  else m1

/-- A request as `http.NewRequestWithContext` builds it: method, URL and
headers. -/
structure Request where
  Method : String
  URL : String
  Header : List (String × String)
  deriving DecidableEq, Repr

/-- What `GetWithContext` reads of a `*http.Response`: the status code and the
body. -/
structure Response where
  StatusCode : Int
  Body : String
  deriving DecidableEq, Repr

/-- The collaborators of `GetWithContext`, each given by its result: building
the request (`http.NewRequestWithContext`), sending it (`httpClient.Do`, which
includes time-out and cancellation) and parsing the body (`html.Parse`). -/
structure Transport where
  NewRequest : String → String → Except String Request
  Do : Request → Except String Response
  Parse : String → Except String Node

/-- The errors that `GetWithContext` returns, one constructor for each
`fmt.Errorf`. -/
inductive GetError where
  | creatingRequest (err : String)
  | fetchingURL (err : String)
  | unexpectedStatusCode (code : Int)
  | parsingHTML (err : String)
  deriving DecidableEq, Repr

/-- Method `Header.Set`: the value of the key is replaced. -/
def headerSet (h : List (String × String)) (key value : String) :
    List (String × String) :=
  (key, value) :: h.filter (fun kv => kv.1 ≠ key)

/-- The statement `req.Header.Set("User-Agent", ...)` of `GetWithContext`. -/
def setUserAgent (req : Request) : Request :=
  { req with
    Header := headerSet req.Header "User-Agent"
      "Mozilla/5.0 (compatible; UrlMetadataBot/1.0)" }

/-- Method `GetWithContext` of metadata.go; the two components of the result
are the two values that the Go method returns, `none` for `nil`. -/
def GetWithContext (w : Transport) (url : String) :
    Option Metadata × Option GetError :=
  match w.NewRequest "GET" url with
  | .error err => (none, some (.creatingRequest err))
  | .ok req =>
    match w.Do (setUserAgent req) with
    | .error err => (none, some (.fetchingURL err))
    | .ok resp =>
      if resp.StatusCode ≠ 200 then
        (none, some (.unexpectedStatusCode resp.StatusCode))
      else
        match w.Parse resp.Body with
        | .error err => (none, some (.parsingHTML err))
        | .ok doc =>
          let metadata : Metadata := { URL := url }
          (some (resolveRelativeURLs url (extractMetadata doc metadata)), none)

/-! ## Document order -/

mutual
/-- The nodes of a tree in depth-first pre-order (document order). -/
def preorder : Node → List Node
  | .mk ty data attrs cs => .mk ty data attrs cs :: preorderList cs
/-- The nodes of a list of sibling trees in document order. -/
def preorderList : List Node → List Node
  | [] => []
  | c :: cs => preorder c ++ preorderList cs
end

/-- What `extractMetaTags` does at one node, as a function of the node. -/
def visit (m : Metadata) (n : Node) : Metadata :=
  visitNode n.Typ n.Data n.Attr m

/-- An element node with tag `meta`. -/
def isMetaElem (n : Node) : Bool :=
  n.Typ = NodeType.ElementNode ∧ n.Data = "meta"

/-- The value of `content` that the meta branch reads from a node. -/
def metaContent (n : Node) : String := (metaAttrs n.Attr).content

/-- A meta element whose `property` is the given string. -/
def isMetaProperty (prop : String) (n : Node) : Bool :=
  isMetaElem n && (metaAttrs n.Attr).property == prop

/-- A meta element whose `name` is the given string. -/
def isMetaName (name : String) (n : Node) : Bool :=
  isMetaElem n && (metaAttrs n.Attr).name == name

/-- The content of the last node in document order that satisfies `p`. -/
def lastContent (p : Node → Bool) (t : Node) : Option String :=
  ((preorder t).filter p).getLast?.map metaContent

/-- The content of the first node in document order that satisfies `p`. -/
def firstContent (p : Node → Bool) (t : Node) : Option String :=
  ((preorder t).find? p).map metaContent

/-- The value of `href` that the link branch reads from a node. -/
def linkHref (n : Node) : String := (linkAttrs n.Attr).href

/-- A link element whose `rel` is exactly "icon" or "shortcut icon". -/
def isIconLink (n : Node) : Bool :=
  n.Typ = NodeType.ElementNode ∧ n.Data = "link" ∧
    ((linkAttrs n.Attr).rel = "icon" ∨ (linkAttrs n.Attr).rel = "shortcut icon")

/-- An element node with tag `link`. -/
def isLinkElem (n : Node) : Bool :=
  n.Typ = NodeType.ElementNode ∧ n.Data = "link"

/-- A keywords element that takes effect: `name` is "keywords" and `content`
is not empty. -/
def isKeywords (n : Node) : Bool :=
  isMetaName "keywords" n && metaContent n != ""

/-- An element with tag `title`. -/
def isTitleElem (n : Node) : Bool :=
  n.Typ = NodeType.ElementNode ∧ n.Data = "title"

/-- A title element that contains a direct text child. -/
def isTitleWithText (n : Node) : Bool :=
  isTitleElem n && n.children.any (fun c => c.Typ = NodeType.TextNode)

/-- The text of the first direct text child of a node (empty if none). -/
def directText (n : Node) : String :=
  ((n.children.find? (fun c => c.Typ = NodeType.TextNode)).map Node.Data).getD ""

/-- The title fallback as the specification words it: the text of the first
element in document order whose tag is "title" and which contains a direct
text child; empty when there is none. -/
def specTitle (t : Node) : String :=
  (((preorder t).find? isTitleWithText).map directText).getD ""

/-- A title element whose first child is a text node: the test of
`extractTitle`. -/
def isTitleHit (n : Node) : Bool :=
  isTitleElem n && (firstChildText n.children).isSome

/-- The data of the first child of a node when that child is a text node
(empty otherwise). -/
def titleText (n : Node) : String :=
  (firstChildText n.children).getD ""

/-- A name=description element with a non-empty content. -/
def isDescription (n : Node) : Bool :=
  isMetaName "description" n && metaContent n != ""

/-- An icon link with a non-empty href. -/
def isIconHref (n : Node) : Bool :=
  isIconLink n && linkHref n != ""

/-! ## Test document of `metadata_test.go` -/

/-- An element node. -/
def el (tag : String) (attrs : List (String × String)) (cs : List Node) : Node :=
  .mk .ElementNode tag (attrs.map fun kv => ⟨"", kv.1, kv.2⟩) cs

/-- A text node. -/
def txt (s : String) : Node := .mk .TextNode s [] []

/-- The document served in `TestMetadataExtraction`, without the white space
text nodes between the elements. -/
def testDoc : Node :=
  .mk .DocumentNode "" [] [
    .mk .DoctypeNode "html" [] [],
    el "html" [] [
      el "head" [] [
        el "title" [] [txt "Test Page"],
        el "meta" [("name", "description"), ("content", "This is a test page")] [],
        el "meta" [("property", "og:title"), ("content", "OG Test Title")] [],
        el "meta" [("property", "og:description"), ("content", "OG test description")] [],
        el "meta" [("property", "og:image"), ("content", "https://example.com/image.jpg")] [],
        el "meta" [("property", "og:site_name"), ("content", "Test Site")] [],
        el "meta" [("property", "og:type"), ("content", "website")] [],
        el "meta" [("name", "author"), ("content", "Test Author")] [],
        el "meta" [("name", "keywords"), ("content", "test, metadata, go")] [],
        el "meta" [("name", "language"), ("content", "en")] [],
        el "link" [("rel", "icon"), ("href", "/favicon.ico")] []],
      el "body" [] [el "h1" [] [txt "Test Page Content"]]]]

/-! ## Further example documents -/

/-- A head with an empty og:title and a title element. -/
def emptyOgTitleDoc : Node :=
  el "html" [] [el "head" [] [
    el "meta" [("property", "og:title"), ("content", "")] [],
    el "title" [] [txt "Page"]]]

/-- A head with an empty og:description followed by a standard description. -/
def emptyOgDescriptionDoc : Node :=
  el "html" [] [el "head" [] [
    el "meta" [("property", "og:description"), ("content", "")] [],
    el "meta" [("name", "description"), ("content", "Standard")] []]]

/-- A head with a standard description only. -/
def standardDescriptionDoc : Node :=
  el "html" [] [el "head" [] [
    el "meta" [("name", "description"), ("content", "Standard")] []]]

/-- The document served in `TestFallbackTitle`, without the white space text
nodes between the elements. -/
def fallbackDoc : Node :=
  .mk .DocumentNode "" [] [
    .mk .DoctypeNode "html" [] [],
    el "html" [] [
      el "head" [] [el "title" [] [txt "Test Page Title"]],
      el "body" [] [el "h1" [] [txt "Content"]]]]

/-- A title element of an svg element whose text comes after an element child
(what the parser builds for `<svg><title><b></b>X</title></svg>`). -/
def svgTitleDoc : Node :=
  el "html" [] [el "head" [] [], el "body" [] [
    el "svg" [] [el "title" [] [el "b" [] [], txt "X"]]]]

/-- A title element whose text node is empty, followed by a second title. -/
def emptyTitleDoc : Node :=
  el "html" [] [el "head" [] [
    el "title" [] [txt ""],
    el "title" [] [txt "B"]]]

/-- Two keywords elements, the second one with an empty content. -/
def emptyKeywordsDoc : Node :=
  el "html" [] [el "head" [] [
    el "meta" [("name", "keywords"), ("content", "a,b")] [],
    el "meta" [("name", "keywords"), ("content", "")] []]]

/-- Two author elements and two language elements. -/
def twoAuthorsDoc : Node :=
  el "html" [] [el "head" [] [
    el "meta" [("name", "author"), ("content", "First")] [],
    el "meta" [("name", "language"), ("content", "en")] [],
    el "meta" [("name", "author"), ("content", "Second")] [],
    el "meta" [("name", "language"), ("content", "th")] []]]

/-- An icon link without href followed by an icon link with one. -/
def emptyHrefIconDoc : Node :=
  el "html" [] [el "head" [] [
    el "link" [("rel", "icon")] [],
    el "link" [("rel", "shortcut icon"), ("href", "/b.ico")] []]]

/-- Two icon links with different hrefs. -/
def twoIconsDoc : Node :=
  el "html" [] [el "head" [] [
    el "link" [("rel", "shortcut icon"), ("href", "/a.ico")] [],
    el "link" [("rel", "icon"), ("href", "/b.ico")] []]]

/-- A record with a relative image path. -/
def relativeImageRecord : Metadata :=
  { URL := "http://example.com", ImageURL := "images/a.png" }

/-- A record with root-relative image and favicon paths. -/
def rootRelativeRecord : Metadata :=
  { URL := "http://example.com/a/b", ImageURL := "/img/a.png",
    FaviconURL := "/favicon.ico" }

/-- A record with an absolute image URL and no favicon. -/
def absoluteImageRecord : Metadata :=
  { URL := "http://example.com", ImageURL := "https://example.com/image.jpg" }

/-- A document without meta, link and title elements. -/
def plainDoc : Node :=
  .mk .DocumentNode "" [] [
    el "html" [] [
      el "head" [] [],
      el "body" [] [el "h1" [] [txt "Content"], .mk .CommentNode "note" [] []]]]

/-- Two og:title, og:image, og:site_name and og:type elements each. -/
def twoOgDoc : Node :=
  el "html" [] [el "head" [] [
    el "meta" [("property", "og:title"), ("content", "First")] [],
    el "meta" [("property", "og:image"), ("content", "/1.png")] [],
    el "meta" [("property", "og:site_name"), ("content", "Site 1")] [],
    el "meta" [("property", "og:type"), ("content", "article")] [],
    el "meta" [("property", "og:title"), ("content", "Second")] [],
    el "meta" [("property", "og:image"), ("content", "/2.png")] [],
    el "meta" [("property", "og:site_name"), ("content", "Site 2")] [],
    el "meta" [("property", "og:type"), ("content", "website")] []]]

/-- A record in which every field is set. -/
def fullRecord : Metadata :=
  { URL := "http://example.com", Title := "T", Description := "D",
    SiteName := "S", ImageURL := "/i.png", FaviconURL := "/f.ico", Typ := "website",
    Author := "A", Keywords := some ["k"], Language := "en" }

/-- Three standard descriptions, the first one empty. -/
def threeDescriptionsDoc : Node :=
  el "html" [] [el "head" [] [
    el "meta" [("name", "description"), ("content", "")] [],
    el "meta" [("name", "description"), ("content", "Second")] [],
    el "meta" [("name", "description"), ("content", "Third")] []]]

/-- A keywords element with an empty piece and white space around pieces. -/
def keywordShapeDoc : Node :=
  el "html" [] [el "head" [] [
    el "meta" [("name", "keywords"), ("content", " a ,, b\t")] []]]

/-- A record with a root-relative image path only. -/
def slashImageRecord : Metadata := { ImageURL := "/x" }

/-- A transport where every step succeeds: status 200 and the test document. -/
def okTransport : Transport :=
  { NewRequest := fun method url => .ok ⟨method, url, []⟩
    Do := fun _ => .ok ⟨200, "<html>"⟩
    Parse := fun _ => .ok testDoc }

/-- A transport that answers with status 404. -/
def notFoundTransport : Transport :=
  { NewRequest := fun method url => .ok ⟨method, url, []⟩
    Do := fun _ => .ok ⟨404, "<html>"⟩
    Parse := fun _ => .ok testDoc }

/-- An icon link without href and nothing else. -/
def noHrefIconDoc : Node :=
  el "html" [] [el "head" [] [el "link" [("rel", "icon")] []]]

/-- A transport whose request cannot be built. -/
def badURLTransport : Transport :=
  { NewRequest := fun _ _ => .error "invalid URL"
    Do := fun _ => .ok ⟨200, "<html>"⟩
    Parse := fun _ => .ok testDoc }

/-- A page whose og:image is a path relative to the page. -/
def relativeImageDoc : Node :=
  .mk .DocumentNode "" [] [
    el "html" [] [
      el "head" [] [
        el "meta" [("property", "og:image"), ("content", "images/a.png")] []],
      el "body" [] []]]

/-- A transport that answers with status 200 and the page with the relative
og:image. -/
def relativeImageTransport : Transport :=
  { NewRequest := fun method url => .ok ⟨method, url, []⟩
    Do := fun _ => .ok ⟨200, "<html>"⟩
    Parse := fun _ => .ok relativeImageDoc }

/-! ## Traversal lemmas -/

mutual
theorem extractMetaTags_eq_foldl (n : Node) (m : Metadata) :
    extractMetaTags n m = (preorder n).foldl visit m :=
  match n with
  | .mk ty data attrs cs => by
    simp only [extractMetaTags, preorder, List.foldl_cons]
    exact extractMetaTagsLoop_eq_foldl cs _
theorem extractMetaTagsLoop_eq_foldl (cs : List Node) (m : Metadata) :
    extractMetaTagsLoop cs m = (preorderList cs).foldl visit m :=
  match cs with
  | [] => by simp [extractMetaTagsLoop, preorderList]
  | c :: cs => by
    simp only [extractMetaTagsLoop, preorderList, List.foldl_append]
    rw [extractMetaTags_eq_foldl c m]
    exact extractMetaTagsLoop_eq_foldl cs _
end

/-- A fold whose step overwrites a projection at the nodes selected by `p`:
the last selected node decides. -/
theorem foldl_last_wins {α S β : Type} (f : S → α → S) (proj : S → β)
    (p : α → Bool) (val : α → β)
    (h : ∀ s x, proj (f s x) = if p x then val x else proj s)
    (l : List α) (s : S) :
    proj (l.foldl f s) = (((l.filter p).getLast?).map val).getD (proj s) := by
  induction l using List.reverseRecOn with
  | nil => simp
  | append_singleton l a ih =>
    by_cases hp : p a
    · simp [List.foldl_append, h, List.filter_append, hp]
    · simp [List.foldl_append, h, List.filter_append, hp, ih]

/-- A fold whose step writes a string projection only while it is empty:
the first selected node with a non-empty value decides. -/
theorem foldl_first_wins {α S : Type} (f : S → α → S) (proj : S → String)
    (p : α → Bool) (val : α → String) (l : List α)
    (h : ∀ s, ∀ x ∈ l, proj (f s x) = if p x ∧ proj s = "" then val x else proj s)
    (s : S) :
    proj (l.foldl f s) =
      if proj s = "" then ((l.find? (fun x => p x && val x != "")).map val).getD ""
      else proj s := by
  induction l generalizing s with
  | nil => by_cases hs : proj s = "" <;> simp [hs]
  | cons x xs ih =>
    have hx := h s x (List.mem_cons_self _ _)
    have ih2 := ih (fun s y hy => h s y (List.mem_cons_of_mem _ hy)) (f s x)
    rw [List.foldl_cons, ih2, hx]
    by_cases hs : proj s = ""
    · by_cases hp : p x
      · by_cases hv : val x = ""
        · simp [hs, hp, hv, List.find?_cons]
        · simp [hs, hp, hv, List.find?_cons]
      · simp [hs, hp, List.find?_cons]
    · simp [hs]

/-! ## The effect of one node on each field -/

theorem visit_eq (m : Metadata) (n : Node) :
    visit m n =
      if isMetaElem n then metaBranch n.Attr m
      else if isLinkElem n then linkBranch n.Attr m else m := by
  cases n with
  | mk ty data attrs cs =>
    simp only [visit, visitNode, Node.Typ, Node.Data, Node.Attr, isMetaElem,
      isLinkElem]
    by_cases hty : ty = NodeType.ElementNode
    · by_cases hm : data = "meta"
      · have hl : ¬ data = "link" := by rw [hm]; decide
        simp [hty, hm, hl]
      · by_cases hl : data = "link"
        · simp [hty, hm, hl]
        · simp [hty, hm, hl]
    · simp [hty]

theorem switchProperty_Title (prop content : String) (m : Metadata) :
    (switchProperty prop content m).Title =
      if prop = "og:title" then content else m.Title := by
  unfold switchProperty; split_ifs <;> rfl

theorem switchProperty_Description (prop content : String) (m : Metadata) :
    (switchProperty prop content m).Description =
      if prop = "og:description" then content else m.Description := by
  unfold switchProperty
  by_cases h : prop = "og:description"
  · subst h; simp
  · split_ifs <;> rfl

theorem switchProperty_FaviconURL (prop content : String) (m : Metadata) :
    (switchProperty prop content m).FaviconURL = m.FaviconURL := by
  unfold switchProperty; split_ifs <;> rfl

theorem switchProperty_Author (prop content : String) (m : Metadata) :
    (switchProperty prop content m).Author = m.Author := by
  unfold switchProperty; split_ifs <;> rfl

theorem switchProperty_Language (prop content : String) (m : Metadata) :
    (switchProperty prop content m).Language = m.Language := by
  unfold switchProperty; split_ifs <;> rfl

theorem switchProperty_Keywords (prop content : String) (m : Metadata) :
    (switchProperty prop content m).Keywords = m.Keywords := by
  unfold switchProperty; split_ifs <;> rfl

theorem switchName_Title (name content : String) (m : Metadata) :
    (switchName name content m).Title = m.Title := by
  unfold switchName; split_ifs <;> rfl

theorem switchName_FaviconURL (name content : String) (m : Metadata) :
    (switchName name content m).FaviconURL = m.FaviconURL := by
  unfold switchName; split_ifs <;> rfl

theorem switchName_Description (name content : String) (m : Metadata) :
    (switchName name content m).Description =
      if name = "description" ∧ m.Description = "" then content
      else m.Description := by
  unfold switchName
  by_cases h : name = "description"
  · subst h
    by_cases hd : m.Description = "" <;> simp [hd]
  · simp only [h, false_and, if_false]
    split_ifs <;> rfl

theorem switchName_Author (name content : String) (m : Metadata) :
    (switchName name content m).Author =
      if name = "author" then content else m.Author := by
  unfold switchName
  by_cases h : name = "author"
  · subst h; simp
  · simp only [h, if_false]
    split_ifs <;> rfl

theorem switchName_Language (name content : String) (m : Metadata) :
    (switchName name content m).Language =
      if name = "language" then content else m.Language := by
  unfold switchName
  by_cases h : name = "language"
  · subst h; simp
  · simp only [h, if_false]
    split_ifs <;> rfl

theorem switchName_Keywords (name content : String) (m : Metadata) :
    (switchName name content m).Keywords =
      if name = "keywords" ∧ content ≠ "" then some (splitKeywords content)
      else m.Keywords := by
  unfold switchName
  by_cases h : name = "keywords"
  · subst h
    by_cases hc : content = "" <;> simp [hc]
  · simp only [h, false_and, if_false]
    split_ifs <;> rfl

theorem linkBranch_Title (attrs : List Attribute) (m : Metadata) :
    (linkBranch attrs m).Title = m.Title := by
  unfold linkBranch; simp only; split_ifs <;> rfl

theorem linkBranch_Description (attrs : List Attribute) (m : Metadata) :
    (linkBranch attrs m).Description = m.Description := by
  unfold linkBranch; simp only; split_ifs <;> rfl

theorem linkBranch_Author (attrs : List Attribute) (m : Metadata) :
    (linkBranch attrs m).Author = m.Author := by
  unfold linkBranch; simp only; split_ifs <;> rfl

theorem linkBranch_Language (attrs : List Attribute) (m : Metadata) :
    (linkBranch attrs m).Language = m.Language := by
  unfold linkBranch; simp only; split_ifs <;> rfl

theorem linkBranch_Keywords (attrs : List Attribute) (m : Metadata) :
    (linkBranch attrs m).Keywords = m.Keywords := by
  unfold linkBranch; simp only; split_ifs <;> rfl

theorem linkBranch_FaviconURL (attrs : List Attribute) (m : Metadata) :
    (linkBranch attrs m).FaviconURL =
      if ((linkAttrs attrs).rel = "icon" ∨ (linkAttrs attrs).rel = "shortcut icon")
          ∧ m.FaviconURL = "" then (linkAttrs attrs).href
      else m.FaviconURL := by
  unfold linkBranch; simp only; split_ifs <;> rfl

theorem visit_Title (m : Metadata) (n : Node) :
    (visit m n).Title =
      if isMetaProperty "og:title" n then metaContent n else m.Title := by
  rw [visit_eq]
  by_cases hm : isMetaElem n = true
  · simp [hm, metaBranch, switchName_Title, switchProperty_Title, isMetaProperty,
      metaContent]
  · by_cases hl : isLinkElem n = true
    · simp [hm, hl, linkBranch_Title, isMetaProperty]
    · simp [hm, hl, isMetaProperty]

theorem visit_Author (m : Metadata) (n : Node) :
    (visit m n).Author =
      if isMetaName "author" n then metaContent n else m.Author := by
  rw [visit_eq]
  by_cases hm : isMetaElem n = true
  · simp [hm, metaBranch, switchName_Author, switchProperty_Author, isMetaName,
      metaContent]
  · by_cases hl : isLinkElem n = true
    · simp [hm, hl, linkBranch_Author, isMetaName]
    · simp [hm, hl, isMetaName]

theorem visit_Language (m : Metadata) (n : Node) :
    (visit m n).Language =
      if isMetaName "language" n then metaContent n else m.Language := by
  rw [visit_eq]
  by_cases hm : isMetaElem n = true
  · simp [hm, metaBranch, switchName_Language, switchProperty_Language,
      isMetaName, metaContent]
  · by_cases hl : isLinkElem n = true
    · simp [hm, hl, linkBranch_Language, isMetaName]
    · simp [hm, hl, isMetaName]

theorem visit_Keywords (m : Metadata) (n : Node) :
    (visit m n).Keywords =
      if isMetaName "keywords" n && metaContent n != "" then
        some (splitKeywords (metaContent n))
      else m.Keywords := by
  rw [visit_eq]
  by_cases hm : isMetaElem n = true
  · simp [hm, metaBranch, switchName_Keywords, switchProperty_Keywords,
      isMetaName, metaContent]
  · by_cases hl : isLinkElem n = true
    · simp [hm, hl, linkBranch_Keywords, isMetaName]
    · simp [hm, hl, isMetaName]

theorem visit_Description (m : Metadata) (n : Node) :
    (visit m n).Description =
      if isMetaProperty "og:description" n then metaContent n
      else if isMetaName "description" n ∧ m.Description = "" then metaContent n
      else m.Description := by
  rw [visit_eq]
  by_cases hm : isMetaElem n = true
  · simp only [hm, if_true, metaBranch, switchName_Description,
      switchProperty_Description, isMetaName, isMetaProperty, metaContent,
      Bool.true_and, beq_iff_eq]
    by_cases hp : (metaAttrs n.Attr).property = "og:description"
    · simp [hp]
    · simp [hp]
  · by_cases hl : isLinkElem n = true
    · simp [hm, hl, linkBranch_Description, isMetaName, isMetaProperty]
    · simp [hm, hl, isMetaName, isMetaProperty]

theorem visit_FaviconURL (m : Metadata) (n : Node) :
    (visit m n).FaviconURL =
      if isIconLink n ∧ m.FaviconURL = "" then linkHref n else m.FaviconURL := by
  rw [visit_eq]
  have hicon : isIconLink n = (isLinkElem n &&
      decide ((linkAttrs n.Attr).rel = "icon" ∨ (linkAttrs n.Attr).rel = "shortcut icon")) := by
    simp [isIconLink, isLinkElem, Bool.and_assoc]
  by_cases hl : isLinkElem n = true
  · have hm : isMetaElem n = false := by
      simp only [isLinkElem, isMetaElem, decide_eq_true_eq, decide_eq_false_iff_not] at hl ⊢
      intro h
      have : ("meta" : String) = "link" := h.2.symm.trans hl.2
      exact absurd this (by decide)
    simp [hm, hl, hicon, linkBranch_FaviconURL, linkHref]
  · by_cases hm : isMetaElem n = true
    · simp [hm, hl, hicon, metaBranch, switchName_FaviconURL, switchProperty_FaviconURL]
    · simp [hm, hl, hicon]

/-! ## The fields after the meta pass and after `extractMetadata` -/

theorem extractMetaTags_Title (t : Node) (m : Metadata) :
    (extractMetaTags t m).Title =
      (lastContent (isMetaProperty "og:title") t).getD m.Title := by
  rw [extractMetaTags_eq_foldl]
  exact foldl_last_wins visit Metadata.Title _ metaContent visit_Title _ m

theorem extractMetaTags_Author (t : Node) (m : Metadata) :
    (extractMetaTags t m).Author =
      (lastContent (isMetaName "author") t).getD m.Author := by
  rw [extractMetaTags_eq_foldl]
  exact foldl_last_wins visit Metadata.Author _ metaContent visit_Author _ m

theorem extractMetaTags_Language (t : Node) (m : Metadata) :
    (extractMetaTags t m).Language =
      (lastContent (isMetaName "language") t).getD m.Language := by
  rw [extractMetaTags_eq_foldl]
  exact foldl_last_wins visit Metadata.Language _ metaContent visit_Language _ m

theorem extractMetaTags_Keywords (t : Node) (m : Metadata) :
    (extractMetaTags t m).Keywords =
      match lastContent isKeywords t with
      | some c => some (splitKeywords c)
      | none => m.Keywords := by
  rw [extractMetaTags_eq_foldl]
  have h := foldl_last_wins visit Metadata.Keywords isKeywords
    (fun n => some (splitKeywords (metaContent n))) visit_Keywords (preorder t) m
  rw [h, lastContent]
  cases ((preorder t).filter isKeywords).getLast? <;> rfl

theorem extractMetaTags_FaviconURL (t : Node) (m : Metadata) :
    (extractMetaTags t m).FaviconURL =
      if m.FaviconURL = "" then
        (((preorder t).find? (fun x => isIconLink x && linkHref x != "")).map
          linkHref).getD ""
      else m.FaviconURL := by
  rw [extractMetaTags_eq_foldl]
  exact foldl_first_wins visit Metadata.FaviconURL isIconLink linkHref _
    (fun s x _ => visit_FaviconURL s x) m

theorem extractMetadata_Title (t : Node) (m : Metadata) :
    (extractMetadata t m).Title =
      if (extractMetaTags t m).Title = "" then extractTitle t
      else (extractMetaTags t m).Title := by
  unfold extractMetadata
  simp only
  split_ifs <;> simp_all

theorem extractMetadata_Description (t : Node) (m : Metadata) :
    (extractMetadata t m).Description = (extractMetaTags t m).Description := by
  unfold extractMetadata
  simp only
  split_ifs <;> rfl

theorem extractMetadata_FaviconURL (t : Node) (m : Metadata) :
    (extractMetadata t m).FaviconURL =
      if (extractMetaTags t m).FaviconURL = "" then extractFavicon t
      else (extractMetaTags t m).FaviconURL := by
  unfold extractMetadata
  simp only
  split_ifs <;> simp_all

mutual
theorem extractFavicon_mem (n : Node) :
    extractFavicon n = "" ∨
      ∃ x ∈ preorder n, isIconLink x = true ∧ linkHref x = extractFavicon n :=
  match n with
  | .mk ty data attrs cs => by
    unfold extractFavicon
    by_cases h1 : ty = NodeType.ElementNode ∧ data = "link"
    · by_cases h2 : (linkAttrs attrs).rel = "icon" ∨ (linkAttrs attrs).rel = "shortcut icon"
      · right
        refine ⟨.mk ty data attrs cs, ?_, ?_, ?_⟩
        · simp [preorder]
        · simp [isIconLink, Node.Typ, Node.Data, Node.Attr, h1.1, h1.2, h2]
        · simp [h1, h2, linkHref, Node.Attr]
      · simp only [h1, h2, and_self, if_true, if_false]
        rcases extractFaviconLoop_mem cs with h | ⟨x, hx, h⟩
        · exact Or.inl h
        · exact Or.inr ⟨x, by simp [preorder, hx], h⟩
    · simp only [h1, if_false]
      rcases extractFaviconLoop_mem cs with h | ⟨x, hx, h⟩
      · exact Or.inl h
      · exact Or.inr ⟨x, by simp [preorder, hx], h⟩
theorem extractFaviconLoop_mem (cs : List Node) :
    extractFaviconLoop cs = "" ∨
      ∃ x ∈ preorderList cs, isIconLink x = true ∧ linkHref x = extractFaviconLoop cs :=
  match cs with
  | [] => by simp [extractFaviconLoop]
  | c :: cs => by
    unfold extractFaviconLoop
    by_cases h : extractFavicon c = ""
    · simp only [h, ne_eq, not_true_eq_false, if_false]
      rcases extractFaviconLoop_mem cs with h2 | ⟨x, hx, h2⟩
      · exact Or.inl h2
      · exact Or.inr ⟨x, by simp [preorderList, hx], h2⟩
    · simp only [ne_eq, h, not_false_eq_true, if_true]
      rcases extractFavicon_mem c with h2 | ⟨x, hx, h2⟩
      · exact absurd h2 h
      · exact Or.inr ⟨x, by simp [preorderList, hx], h2⟩
end

theorem foldl_Description_og (l : List Node) (m : Metadata) (c : String)
    (h : ((l.filter (isMetaProperty "og:description")).getLast?.map metaContent) = some c)
    (hc : c ≠ "") : (l.foldl visit m).Description = c := by
  induction l using List.reverseRecOn with
  | nil => simp at h
  | append_singleton l a ih =>
    rw [List.foldl_append, List.foldl_cons, List.foldl_nil, visit_Description]
    by_cases hp : isMetaProperty "og:description" a = true
    · simp [List.filter_append, hp] at h
      simp [hp, h]
    · simp [List.filter_append, hp] at h
      have ih2 := ih (by simpa using h)
      simp [hp, ih2, hc]

theorem foldl_Description_std (l : List Node) (m : Metadata)
    (h : ∀ x ∈ l, isMetaProperty "og:description" x = false)
    (hm : m.Description = "") :
    (l.foldl visit m).Description =
      ((l.find? isDescription).map metaContent).getD "" := by
  have key := foldl_first_wins visit Metadata.Description
    (isMetaName "description") metaContent l
    (fun s x hx => by rw [visit_Description, h x hx]; simp) m
  rw [key, if_pos hm]
  rfl

mutual
theorem extractTitle_eq_find (n : Node)
    (h : ∀ x ∈ preorder n, isTitleHit x = true → titleText x ≠ "") :
    extractTitle n = (((preorder n).find? isTitleHit).map titleText).getD "" :=
  match n with
  | .mk ty data attrs cs => by
    have hcs : ∀ x ∈ preorderList cs, isTitleHit x = true → titleText x ≠ "" :=
      fun x hx => h x (by simp [preorder, hx])
    have hloop := extractTitleLoop_eq_find cs hcs
    unfold extractTitle
    by_cases h1 : ty = NodeType.ElementNode ∧ data = "title"
    · cases h2 : firstChildText cs with
      | some s =>
        have hhit : isTitleHit (.mk ty data attrs cs) = true := by
          simp [isTitleHit, isTitleElem, Node.Typ, Node.Data, Node.children, h1.1, h1.2, h2]
        rw [if_pos h1, preorder, List.find?_cons, hhit]
        simp [titleText, Node.children, h2]
      | none =>
        have hhit : isTitleHit (.mk ty data attrs cs) = false := by
          simp [isTitleHit, Node.children, h2]
        rw [if_pos h1, preorder, List.find?_cons, hhit]
        exact hloop
    · have hhit : isTitleHit (.mk ty data attrs cs) = false := by
        simp only [isTitleHit, isTitleElem, Node.Typ, Node.Data, h1, decide_False,
          Bool.false_and]
      rw [if_neg h1, preorder, List.find?_cons, hhit]
      exact hloop
theorem extractTitleLoop_eq_find (cs : List Node)
    (h : ∀ x ∈ preorderList cs, isTitleHit x = true → titleText x ≠ "") :
    extractTitleLoop cs =
      (((preorderList cs).find? isTitleHit).map titleText).getD "" :=
  match cs with
  | [] => by simp [extractTitleLoop, preorderList]
  | c :: cs => by
    have hc : ∀ x ∈ preorder c, isTitleHit x = true → titleText x ≠ "" :=
      fun x hx => h x (by simp [preorderList, hx])
    have hcs : ∀ x ∈ preorderList cs, isTitleHit x = true → titleText x ≠ "" :=
      fun x hx => h x (by simp [preorderList, hx])
    have e1 := extractTitle_eq_find c hc
    have e2 := extractTitleLoop_eq_find cs hcs
    unfold extractTitleLoop
    simp only [preorderList, List.find?_append]
    cases hf : (preorder c).find? isTitleHit with
    | some x =>
      have hx := List.find?_some hf
      have hmem := List.mem_of_find?_eq_some hf
      rw [hf] at e1
      simp only [Option.map_some', Option.getD_some] at e1
      have hne : extractTitle c ≠ "" := by rw [e1]; exact hc x hmem hx
      rw [if_pos hne, e1]
      simp
    | none =>
      rw [hf] at e1
      simp only [Option.map_none', Option.getD_none] at e1
      have hne : ¬ extractTitle c ≠ "" := by simp [e1]
      rw [if_neg hne, e2]
      simp
end

theorem filter_getLast?_isSome {α : Type} (p : α → Bool) (l : List α)
    (h : ∃ x ∈ l, p x = true) : ∃ e, (l.filter p).getLast? = some e := by
  obtain ⟨x, hx, hp⟩ := h
  have hmem : x ∈ l.filter p := List.mem_filter.mpr ⟨hx, hp⟩
  cases hl : (l.filter p).getLast? with
  | some e => exact ⟨e, rfl⟩
  | none =>
    rw [List.getLast?_eq_none_iff] at hl
    rw [hl] at hmem
    exact absurd hmem (List.not_mem_nil _)

theorem metaAttrStep_content (v : MetaVars) (a : Attribute)
    (h : a.Key ≠ "content") : (metaAttrStep v a).content = v.content := by
  unfold metaAttrStep
  split_ifs <;> rfl

theorem metaAttrs_content_of_absent (attrs : List Attribute)
    (h : ∀ a ∈ attrs, a.Key ≠ "content") : (metaAttrs attrs).content = "" := by
  unfold metaAttrs
  induction attrs using List.reverseRecOn with
  | nil => rfl
  | append_singleton l a ih =>
    have ha : a.Key ≠ "content" := h a (by simp)
    have ih2 := ih (fun b hb => h b (by simp [hb]))
    rw [List.foldl_append, List.foldl_cons, List.foldl_nil,
      metaAttrStep_content _ a ha, ih2]

/-! ## Lemmas on package `strings` and `resolveURL` -/

theorem cutAt_of_not_mem (sep : Char) (l : List Char) (h : sep ∉ l) :
    strings.cutAt sep l = none := by
  induction l with
  | nil => rfl
  | cons c cs ih =>
    have h1 : ¬ c = sep := fun e => h (by simp [e])
    have h2 : sep ∉ cs := fun e => h (by simp [e])
    simp [strings.cutAt, h1, ih h2]

theorem cutAt_append (sep : Char) (a b : List Char) (h : sep ∉ a) :
    strings.cutAt sep (a ++ sep :: b) = some (a, b) := by
  induction a with
  | nil => simp [strings.cutAt]
  | cons c cs ih =>
    have h1 : ¬ c = sep := fun e => h (by simp [e])
    have h2 : sep ∉ cs := fun e => h (by simp [e])
    simp [strings.cutAt, h1, ih h2]

theorem cutAt_eq_some (sep : Char) (l a b : List Char)
    (h : strings.cutAt sep l = some (a, b)) : l = a ++ sep :: b ∧ sep ∉ a := by
  induction l generalizing a with
  | nil => simp [strings.cutAt] at h
  | cons c cs ih =>
    by_cases h1 : c = sep
    · simp [strings.cutAt, h1] at h
      obtain ⟨rfl, rfl⟩ := h
      simp [h1]
    · simp only [strings.cutAt, h1, if_false] at h
      cases h2 : strings.cutAt sep cs with
      | none => simp [h2] at h
      | some q =>
        obtain ⟨a2, b2⟩ := q
        simp only [h2, Option.some.injEq, Prod.mk.injEq] at h
        obtain ⟨rfl, rfl⟩ := h
        obtain ⟨e, hn⟩ := ih a2 h2
        refine ⟨by simp [e], ?_⟩
        simp only [List.mem_cons, not_or]
        exact ⟨fun e2 => h1 e2.symm, hn⟩

theorem cutAt_eq_none (sep : Char) (l : List Char)
    (h : strings.cutAt sep l = none) : sep ∉ l := by
  induction l with
  | nil => simp
  | cons c cs ih =>
    by_cases h1 : c = sep
    · simp [strings.cutAt, h1] at h
    · simp only [strings.cutAt, h1, if_false] at h
      cases h2 : strings.cutAt sep cs with
      | none =>
        simp only [List.mem_cons, not_or]
        exact ⟨fun e2 => h1 e2.symm, ih h2⟩
      | some q => obtain ⟨a2, b2⟩ := q; simp [h2] at h

theorem HasPrefix_iff (s pre : String) :
    strings.HasPrefix s pre = true ↔ ∃ r, s.data = pre.data ++ r := by
  unfold strings.HasPrefix
  rw [List.isPrefixOf_iff_prefix]
  constructor
  · rintro ⟨r, hr⟩; exact ⟨r, hr.symm⟩
  · rintro ⟨r, hr⟩; exact ⟨r, hr.symm⟩

theorem genSplit_length_pos (sep : Char) (n : Nat) (l : List Char) :
    0 < (strings.genSplit sep (n + 1) l).length := by
  cases n with
  | zero => simp [strings.genSplit]
  | succ k =>
    unfold strings.genSplit
    cases strings.cutAt sep l with
    | none => simp
    | some q => simp

theorem genSplit_length_lt_three_iff (l : List Char) :
    (strings.genSplit '/' 4 l).length < 3 ↔ l.count '/' < 2 := by
  unfold strings.genSplit
  cases h1 : strings.cutAt '/' l with
  | none =>
    have := cutAt_eq_none _ _ h1
    simp [List.count_eq_zero_of_not_mem this]
  | some q =>
    obtain ⟨a, r⟩ := q
    obtain ⟨e, hn⟩ := cutAt_eq_some _ _ _ _ h1
    subst e
    simp only [List.length_cons, List.count_append, List.count_cons_self,
      List.count_eq_zero_of_not_mem hn]
    unfold strings.genSplit
    cases h2 : strings.cutAt '/' r with
    | none =>
      have := cutAt_eq_none _ _ h2
      simp [List.count_eq_zero_of_not_mem this]
    | some q2 =>
      obtain ⟨a2, r2⟩ := q2
      simp only [List.length_cons]
      obtain ⟨e2, hn2⟩ := cutAt_eq_some _ _ _ _ h2
      subst e2
      have hpos := genSplit_length_pos '/' 1 r2
      simp only [List.count_append, List.count_cons_self]
      omega

theorem resolveURL_of_short (baseURL relURL : String)
    (h : (strings.SplitN baseURL '/' 4).length < 3) :
    resolveURL baseURL relURL = relURL := by
  unfold resolveURL
  split_ifs
  · split
    · rename_i heq
      rw [heq] at h
      simp at h
      omega
    · rfl
  · rfl

theorem prefix_of_cut (sep : Char) (pre : List Char) (hpre : sep ∉ pre) :
    ∀ (a b r : List Char), a ++ sep :: b = pre ++ r → ∃ a2, a = pre ++ a2 := by
  induction pre with
  | nil => intro a b r _; exact ⟨a, rfl⟩
  | cons p ps ih =>
    intro a b r h
    have h1 : ¬ sep = p := fun e => hpre (by simp [e])
    have h2 : sep ∉ ps := fun e => hpre (by simp [e])
    cases a with
    | nil =>
      simp only [List.nil_append, List.cons_append, List.cons.injEq] at h
      exact absurd h.1 h1
    | cons x xs =>
      simp only [List.cons_append, List.cons.injEq] at h
      obtain ⟨a2, ha2⟩ := ih h2 xs b r h.2
      exact ⟨a2, by simp [h.1, ha2]⟩

theorem resolveURL_HasPrefix_http (baseURL relURL : String)
    (hb : strings.HasPrefix baseURL "http" = true)
    (hs : 3 ≤ (strings.SplitN baseURL '/' 4).length)
    (hc : strings.HasPrefix relURL "/" = true) :
    strings.HasPrefix (resolveURL baseURL relURL) "http" = true := by
  unfold resolveURL
  rw [if_pos hc]
  obtain ⟨r, hr⟩ := (HasPrefix_iff _ _).1 hb
  unfold strings.SplitN at hs ⊢
  unfold strings.genSplit at hs ⊢
  cases h1 : strings.cutAt '/' baseURL.data with
  | none => simp [h1] at hs
  | some q =>
    obtain ⟨a, rest⟩ := q
    obtain ⟨e, _⟩ := cutAt_eq_some _ _ _ _ h1
    obtain ⟨a2, ha2⟩ := prefix_of_cut '/' "http".data (by decide) a rest r
      (e.symm.trans hr)
    simp only [h1, List.map_cons, List.length_cons, List.length_map] at hs ⊢
    cases h2 : strings.genSplit '/' (2 + 1) rest with
    | nil => simp [h2] at hs
    | cons x xs =>
      cases xs with
      | nil => simp [h2] at hs
      | cons y ys =>
        simp only [List.map_cons]
        rw [HasPrefix_iff]
        exact ⟨a2 ++ ("//" ++ String.mk y ++ relURL).data, by
          simp [String.data_append, ha2]⟩

theorem resolveRelativeURLs_ImageURL (baseURL : String) (m : Metadata) :
    (resolveRelativeURLs baseURL m).ImageURL =
      if m.ImageURL ≠ "" ∧ ¬ strings.HasPrefix m.ImageURL "http" then
        resolveURL baseURL m.ImageURL
      else m.ImageURL := by
  unfold resolveRelativeURLs
  simp only
  split_ifs <;> rfl

theorem resolveRelativeURLs_FaviconURL (baseURL : String) (m : Metadata) :
    (resolveRelativeURLs baseURL m).FaviconURL =
      if m.FaviconURL ≠ "" ∧ ¬ strings.HasPrefix m.FaviconURL "http" then
        resolveURL baseURL m.FaviconURL
      else m.FaviconURL := by
  unfold resolveRelativeURLs
  simp only
  split_ifs <;> simp_all

theorem HasPrefix_http_of_https (s : String)
    (h : strings.HasPrefix s "https://" = true) :
    strings.HasPrefix s "http" = true := by
  obtain ⟨r, hr⟩ := (HasPrefix_iff _ _).1 h
  rw [HasPrefix_iff]
  exact ⟨"s://".data ++ r, by rw [hr]; rfl⟩

/-- What `resolveRelativeURLs` computes for one field. -/
theorem resolved_absolute (baseURL v : String)
    (hb : strings.HasPrefix baseURL "http" = true)
    (hs : 3 ≤ (strings.SplitN baseURL '/' 4).length)
    (hv : v = "" ∨ strings.HasPrefix v "http" = true ∨ strings.HasPrefix v "/" = true) :
    (if v ≠ "" ∧ ¬ strings.HasPrefix v "http" then resolveURL baseURL v else v) = "" ∨
      strings.HasPrefix
        (if v ≠ "" ∧ ¬ strings.HasPrefix v "http" then resolveURL baseURL v else v)
        "http" = true := by
  by_cases h1 : v = ""
  · left; simp [h1]
  · by_cases h2 : strings.HasPrefix v "http" = true
    · right; simp [h2]
    · have h3 : strings.HasPrefix v "/" = true := by
        rcases hv with h | h | h
        · exact absurd h h1
        · exact absurd h h2
        · exact h
      right
      rw [if_pos ⟨h1, by simpa using h2⟩]
      exact resolveURL_HasPrefix_http baseURL v hb hs h3

/-! ## Claims -/

/-- C1, as the code has it: when the last og:title element of a document, in
document order, has a non-empty content, `extractMetadata` yields that content
as Title, whatever title elements the document contains and whatever Title
held before; when that content is empty, the title fallback applies and Title
is what `extractTitle` finds in the document. -/
theorem og_title_precedence (t : Node) (m : Metadata) (c : String)
    (h : lastContent (isMetaProperty "og:title") t = some c) :
    (c ≠ "" → (extractMetadata t m).Title = c) ∧
    (c = "" → (extractMetadata t m).Title = extractTitle t) := by
  have hpass : (extractMetaTags t m).Title = c := by
    rw [extractMetaTags_Title, h]
    rfl
  constructor
  · intro hc
    rw [extractMetadata_Title, hpass, if_neg hc]
  · intro hc
    rw [extractMetadata_Title, hpass, if_pos hc]

/-- C1 at the test document, where Title is the og:title content and not
"Test Page", and at a document whose og:title content is empty, where Title is
the text of the title element. -/
theorem og_title_precedence_witness :
    (lastContent (isMetaProperty "og:title") testDoc = some "OG Test Title" ∧
      (extractMetadata testDoc {}).Title = "OG Test Title") ∧
    (lastContent (isMetaProperty "og:title") emptyOgTitleDoc = some "" ∧
      (extractMetadata emptyOgTitleDoc {}).Title = "Page") :=
  ⟨⟨by decide,
      (og_title_precedence testDoc {} "OG Test Title" (by decide)).1 (by decide)⟩,
    ⟨by decide,
      ((og_title_precedence emptyOgTitleDoc {} "" (by decide)).2 rfl).trans
        (by decide)⟩⟩

/-- C1 as stated fails: a document with an og:title element (of empty content)
and a title element with a text child, extracted into a record with empty
Title, gets the text of the title element, not the og:title content. -/
theorem og_title_precedence_counterexample :
    ({} : Metadata).Title = "" ∧
      (∃ x ∈ preorder emptyOgTitleDoc, isMetaProperty "og:title" x = true) ∧
      (∃ x ∈ preorder emptyOgTitleDoc, isTitleWithText x = true) ∧
      lastContent (isMetaProperty "og:title") emptyOgTitleDoc = some "" ∧
      (extractMetadata emptyOgTitleDoc {}).Title = "Page" ∧
      some (extractMetadata emptyOgTitleDoc {}).Title ≠
        lastContent (isMetaProperty "og:title") emptyOgTitleDoc := by
  decide

/-- C2, as the code has it: when the last og:description element of a document
has a non-empty content, the extracted Description is that content, wherever
name=description elements occur; and when the document has no og:description
element and the record starts with an empty Description, the extracted
Description is the content of the first name=description element whose
content is not empty (empty when there is none). -/
theorem description_precedence (t : Node) (m : Metadata) :
    (∀ c, lastContent (isMetaProperty "og:description") t = some c → c ≠ "" →
        (extractMetadata t m).Description = c) ∧
    ((∀ x ∈ preorder t, isMetaProperty "og:description" x = false) →
        m.Description = "" →
        (extractMetadata t m).Description = (firstContent isDescription t).getD "") := by
  constructor
  · intro c h hc
    rw [extractMetadata_Description, extractMetaTags_eq_foldl]
    exact foldl_Description_og _ m c h hc
  · intro h hm
    rw [extractMetadata_Description, extractMetaTags_eq_foldl]
    exact foldl_Description_std _ m h hm

/-- C2 at the test document (og:description after a standard description) and
at a document with a standard description only. -/
theorem description_precedence_witness :
    (extractMetadata testDoc {}).Description = "OG test description" ∧
      (extractMetadata standardDescriptionDoc {}).Description = "Standard" :=
  ⟨(description_precedence testDoc {}).1 "OG test description"
      (by decide) (by decide),
    ((description_precedence standardDescriptionDoc {}).2
      (by decide) (by decide)).trans (by decide)⟩

/-- C2 as stated fails: an og:description element of empty content followed by
a name=description element leaves the standard description in the record. -/
theorem description_precedence_counterexample :
    (∃ x ∈ preorder emptyOgDescriptionDoc, isMetaProperty "og:description" x = true) ∧
      lastContent (isMetaProperty "og:description") emptyOgDescriptionDoc = some "" ∧
      (extractMetadata emptyOgDescriptionDoc {}).Description = "Standard" ∧
      some (extractMetadata emptyOgDescriptionDoc {}).Description ≠
        lastContent (isMetaProperty "og:description") emptyOgDescriptionDoc := by
  decide

/-- C3, as the code has it: in a document where no title element has an empty
text node as its first child, and on which the meta pass leaves Title empty,
`extractMetadata` sets Title to the data of the first child of the first
element, in document order, whose tag is "title" and whose first child is a
text node; the text is taken as it is, the first such element wins and Title
stays empty when there is none. -/
theorem title_fallback (t : Node) (m : Metadata)
    (hne : ∀ x ∈ preorder t, isTitleHit x = true → titleText x ≠ "")
    (h : (extractMetaTags t m).Title = "") :
    (extractMetadata t m).Title =
      (((preorder t).find? isTitleHit).map titleText).getD "" := by
  rw [extractMetadata_Title, if_pos h]
  exact extractTitle_eq_find t hne

/-- C3 at the document of `TestFallbackTitle`. -/
theorem title_fallback_witness :
    (extractMetaTags fallbackDoc {}).Title = "" ∧
      (extractMetadata fallbackDoc {}).Title = "Test Page Title" :=
  ⟨by decide,
    (title_fallback fallbackDoc {} (by decide) (by decide)).trans (by decide)⟩

/-- C3 as stated fails twice. A title element whose text child comes after an
element child is the first title element with a direct text child, yet Title
stays empty; and a title element whose first child is an empty text node is
passed over for a later title element. -/
theorem title_fallback_counterexample :
    ((extractMetaTags svgTitleDoc {}).Title = "" ∧
      specTitle svgTitleDoc = "X" ∧
      (extractMetadata svgTitleDoc {}).Title = "") ∧
    ((extractMetaTags emptyTitleDoc {}).Title = "" ∧
      specTitle emptyTitleDoc = "" ∧
      (extractMetadata emptyTitleDoc {}).Title = "B") := by
  decide

/-- C4, as the code has it: after `extractMetaTags` the Keywords are those of
the last name=keywords element, in document order, whose content is not empty:
that content split on "," with each piece trimmed, in the original order; when
no such element exists Keywords is what it was before. The content
"test, metadata, go" yields "test", "metadata", "go". -/
theorem keyword_parsing (t : Node) (m : Metadata) :
    (∀ c, lastContent isKeywords t = some c →
        (extractMetaTags t m).Keywords =
          some ((strings.Split c ',').map strings.TrimSpace)) ∧
    (lastContent isKeywords t = none → (extractMetaTags t m).Keywords = m.Keywords) ∧
    (strings.Split "test, metadata, go" ',').map strings.TrimSpace =
      ["test", "metadata", "go"] := by
  refine ⟨?_, ?_, by decide⟩
  · intro c h
    rw [extractMetaTags_Keywords, h]
    rfl
  · intro h
    rw [extractMetaTags_Keywords, h]

/-- C4 at the test document and at a document without keywords. -/
theorem keyword_parsing_witness :
    (extractMetaTags testDoc {}).Keywords = some ["test", "metadata", "go"] ∧
      (extractMetaTags fallbackDoc {}).Keywords = none :=
  ⟨((keyword_parsing testDoc {}).1 "test, metadata, go" (by decide)).trans
      (by decide),
    (keyword_parsing fallbackDoc {}).2.1 (by decide)⟩

/-- C4 as stated fails: the last name=keywords element of the document has an
empty content, and Keywords is not that content split and trimmed but the
keywords of the element before it. -/
theorem keyword_parsing_counterexample :
    lastContent (isMetaName "keywords") emptyKeywordsDoc = some "" ∧
      (extractMetaTags emptyKeywordsDoc {}).Keywords = some ["a", "b"] ∧
      (extractMetaTags emptyKeywordsDoc {}).Keywords ≠
        some ((strings.Split "" ',').map strings.TrimSpace) := by
  decide

/-- C5: for a scheme part `s` and a host part `h` without "/", a `rest` that
is empty or begins with "/", and a candidate `c` that begins with "/",
`resolveURL` keeps the scheme and host of the base and appends the
candidate. -/
theorem resolveURL_root_relative (s h rest c : String)
    (hs : '/' ∉ s.data) (hh : '/' ∉ h.data)
    (hrest : rest = "" ∨ strings.HasPrefix rest "/" = true)
    (hc : strings.HasPrefix c "/" = true) :
    resolveURL (s ++ "//" ++ h ++ rest) c = s ++ "//" ++ h ++ c := by
  unfold resolveURL
  rw [if_pos hc]
  have hdata : (s ++ "//" ++ h ++ rest).data
      = s.data ++ '/' :: ('/' :: (h.data ++ rest.data)) := by
    simp [String.data_append]
  have hsplit : ∃ tl, strings.SplitN (s ++ "//" ++ h ++ rest) '/' 4
      = s :: "" :: h :: tl := by
    unfold strings.SplitN
    rw [hdata]
    rcases hrest with hr | hr
    · subst hr
      refine ⟨[], ?_⟩
      simp [strings.genSplit, cutAt_append _ _ _ hs, strings.cutAt,
        cutAt_of_not_mem _ _ hh]
    · obtain ⟨r, hr⟩ := (HasPrefix_iff _ _).1 hr
      refine ⟨[String.mk r], ?_⟩
      have hr2 : rest.data = '/' :: r := by simpa using hr
      simp [strings.genSplit, cutAt_append _ _ _ hs, strings.cutAt, hr2,
        cutAt_append _ _ _ hh]
  obtain ⟨tl, htl⟩ := hsplit
  rw [htl]

/-- C5 at the base "http://host:port" and the candidate "/favicon.ico". -/
theorem resolveURL_root_relative_witness :
    resolveURL "http://host:port" "/favicon.ico" = "http://host:port/favicon.ico" :=
  resolveURL_root_relative "http:" "host:port" "" "/favicon.ico"
    (by decide) (by decide) (Or.inl rfl) (by decide)

/-- The conversion that `resolveRelativeURLs` does perform: when the request
URL begins with "http" and splits on "/" into at least 3 parts, each of
ImageURL and FaviconURL that was empty, began with "http" or began with "/"
is afterwards empty or a value that begins with "http". -/
theorem absolute_after_resolution (baseURL : String) (m : Metadata)
    (hb : strings.HasPrefix baseURL "http" = true)
    (hs : 3 ≤ (strings.SplitN baseURL '/' 4).length) :
    ((m.ImageURL = "" ∨ strings.HasPrefix m.ImageURL "http" = true ∨
          strings.HasPrefix m.ImageURL "/" = true) →
        (resolveRelativeURLs baseURL m).ImageURL = "" ∨
          strings.HasPrefix (resolveRelativeURLs baseURL m).ImageURL "http" = true) ∧
    ((m.FaviconURL = "" ∨ strings.HasPrefix m.FaviconURL "http" = true ∨
          strings.HasPrefix m.FaviconURL "/" = true) →
        (resolveRelativeURLs baseURL m).FaviconURL = "" ∨
          strings.HasPrefix (resolveRelativeURLs baseURL m).FaviconURL "http" = true) := by
  constructor
  · intro hv
    rw [resolveRelativeURLs_ImageURL]
    exact resolved_absolute baseURL _ hb hs hv
  · intro hv
    rw [resolveRelativeURLs_FaviconURL]
    exact resolved_absolute baseURL _ hb hs hv

/-- The conversion at a record with root-relative image and favicon paths. -/
theorem absolute_after_resolution_witness :
    strings.HasPrefix
        (resolveRelativeURLs "http://example.com/a/b" rootRelativeRecord).ImageURL
        "http" = true ∧
      strings.HasPrefix
        (resolveRelativeURLs "http://example.com/a/b" rootRelativeRecord).FaviconURL
        "http" = true :=
  ⟨((absolute_after_resolution "http://example.com/a/b" rootRelativeRecord
        (by decide) (by decide)).1 (by decide)).resolve_left (by decide),
    ((absolute_after_resolution "http://example.com/a/b" rootRelativeRecord
        (by decide) (by decide)).2 (by decide)).resolve_left (by decide)⟩

/-- C6 does not hold of the code: a page fetched from "http://example.com" with
the og:image "images/a.png" is returned with ImageURL "images/a.png", which is
not empty and is not absolute. `resolveRelativeURLs` reaches `resolveURL` for
this value, and `resolveURL` returns a value that does not begin with "/" as
it is, as it does for "../x.png". -/
theorem relative_url_left_unresolved :
    GetWithContext relativeImageTransport "http://example.com" =
        (some { URL := "http://example.com", ImageURL := "images/a.png" }, none) ∧
      (resolveRelativeURLs "http://example.com" relativeImageRecord).ImageURL
        = "images/a.png" ∧
      (resolveRelativeURLs "http://example.com" relativeImageRecord).ImageURL ≠ "" ∧
      strings.HasPrefix
        (resolveRelativeURLs "http://example.com" relativeImageRecord).ImageURL
        "http" = false ∧
      resolveURL "http://example.com" "images/a.png" = "images/a.png" ∧
      resolveURL "http://example.com/dir/page" "../x.png" = "../x.png" := by
  decide

/-- C7: `resolveRelativeURLs` leaves ImageURL unchanged when it is empty or
begins with "http", likewise FaviconURL; in particular an ImageURL that begins
with "https://" is returned unchanged. -/
theorem absolute_passthrough (baseURL : String) (m : Metadata) :
    ((m.ImageURL = "" ∨ strings.HasPrefix m.ImageURL "http" = true) →
        (resolveRelativeURLs baseURL m).ImageURL = m.ImageURL) ∧
    ((m.FaviconURL = "" ∨ strings.HasPrefix m.FaviconURL "http" = true) →
        (resolveRelativeURLs baseURL m).FaviconURL = m.FaviconURL) ∧
    (strings.HasPrefix m.ImageURL "https://" = true →
        (resolveRelativeURLs baseURL m).ImageURL = m.ImageURL) := by
  have key : ∀ v : String, (v = "" ∨ strings.HasPrefix v "http" = true) →
      (if v ≠ "" ∧ ¬ strings.HasPrefix v "http" then resolveURL baseURL v else v) = v := by
    intro v hv
    rcases hv with h | h
    · simp [h]
    · simp [h]
  refine ⟨fun h => ?_, fun h => ?_, fun h => ?_⟩
  · rw [resolveRelativeURLs_ImageURL]; exact key _ h
  · rw [resolveRelativeURLs_FaviconURL]; exact key _ h
  · rw [resolveRelativeURLs_ImageURL]
    exact key _ (Or.inr (HasPrefix_http_of_https _ h))

/-- C7 at the og:image of the test document and an empty favicon. -/
theorem absolute_passthrough_witness :
    (resolveRelativeURLs "http://127.0.0.1:8080" absoluteImageRecord).ImageURL
        = "https://example.com/image.jpg" ∧
      (resolveRelativeURLs "http://127.0.0.1:8080" absoluteImageRecord).FaviconURL
        = "" :=
  ⟨(absolute_passthrough "http://127.0.0.1:8080" absoluteImageRecord).2.2 (by decide),
    (absolute_passthrough "http://127.0.0.1:8080" absoluteImageRecord).2.1
      (Or.inl rfl)⟩

/-- C8: `resolveURL` returns the candidate unchanged when the candidate does
not begin with "/", or the base splits on "/" into fewer than 3 parts, which
is to say it contains fewer than two "/" characters. -/
theorem resolveURL_passthrough (baseURL relURL : String)
    (h : strings.HasPrefix relURL "/" = false ∨
      (strings.SplitN baseURL '/' 4).length < 3 ∨
      baseURL.data.count '/' < 2) :
    resolveURL baseURL relURL = relURL := by
  rcases h with h | h | h
  · unfold resolveURL
    simp [h]
  · exact resolveURL_of_short baseURL relURL h
  · refine resolveURL_of_short baseURL relURL ?_
    unfold strings.SplitN
    rw [List.length_map]
    exact (genSplit_length_lt_three_iff _).2 h

/-- C8 at a path with "../", at a base without slashes and at a base with a
single slash. -/
theorem resolveURL_passthrough_witness :
    resolveURL "http://example.com/dir/page" "../x.png" = "../x.png" ∧
      resolveURL "example.com" "/x.png" = "/x.png" ∧
      resolveURL "example.com/dir" "/x.png" = "/x.png" :=
  ⟨resolveURL_passthrough _ _ (Or.inl (by decide)),
    resolveURL_passthrough _ _ (Or.inr (Or.inl (by decide))),
    resolveURL_passthrough _ _ (Or.inr (Or.inr (by decide)))⟩

/-- C9: in a document with at least one name=author element, after
`extractMetaTags` Author is the content of the last such element in document
order, whatever Author held before; likewise name=language and Language; and
an element without a content attribute has the empty content. -/
theorem last_wins_author_language (t : Node) (m : Metadata) :
    ((∃ x ∈ preorder t, isMetaName "author" x = true) →
        some (extractMetaTags t m).Author = lastContent (isMetaName "author") t) ∧
    ((∃ x ∈ preorder t, isMetaName "language" x = true) →
        some (extractMetaTags t m).Language = lastContent (isMetaName "language") t) ∧
    (∀ x : Node, (∀ a ∈ x.Attr, a.Key ≠ "content") → metaContent x = "") := by
  refine ⟨fun h => ?_, fun h => ?_, fun x hx => metaAttrs_content_of_absent _ hx⟩
  · obtain ⟨e, he⟩ := filter_getLast?_isSome _ _ h
    rw [extractMetaTags_Author]
    simp [lastContent, he]
  · obtain ⟨e, he⟩ := filter_getLast?_isSome _ _ h
    rw [extractMetaTags_Language]
    simp [lastContent, he]

/-- C9 at a document with two author and two language elements. -/
theorem last_wins_author_language_witness :
    (extractMetaTags twoAuthorsDoc {}).Author = "Second" ∧
      (extractMetaTags twoAuthorsDoc {}).Language = "th" :=
  ⟨Option.some.inj (((last_wins_author_language twoAuthorsDoc {}).1
      (by decide)).trans (by decide)),
    Option.some.inj (((last_wins_author_language twoAuthorsDoc {}).2.1
      (by decide)).trans (by decide))⟩

/-- C10, as the code has it: started on a record with empty FaviconURL,
`extractMetadata` sets FaviconURL to the href of the first link element in
document order whose rel is exactly "icon" or "shortcut icon" and whose href
is not empty (FaviconURL stays empty when there is none); later links never
change it. -/
theorem favicon_first_occurrence (t : Node) (m : Metadata)
    (h : m.FaviconURL = "") :
    (extractMetadata t m).FaviconURL =
      (((preorder t).find? isIconHref).map linkHref).getD "" := by
  have hpass : (extractMetaTags t m).FaviconURL =
      (((preorder t).find? isIconHref).map linkHref).getD "" := by
    rw [extractMetaTags_FaviconURL, if_pos h]
    rfl
  rw [extractMetadata_FaviconURL]
  by_cases he : (extractMetaTags t m).FaviconURL = ""
  · rw [if_pos he]
    rw [hpass] at he
    rw [he]
    cases hf : (preorder t).find? isIconHref with
    | some x =>
      have hx := List.find?_some hf
      rw [hf] at he
      simp [isIconHref, he] at hx
      simp only [Option.map_some', Option.getD_some] at he
      exact absurd he hx.2
    | none =>
      rw [List.find?_eq_none] at hf
      rcases extractFavicon_mem t with h0 | ⟨x, hx, hicon, hhref⟩
      · exact h0
      · have := hf x hx
        simp only [isIconHref, hicon, Bool.true_and, bne_iff_ne, ne_eq,
          Decidable.not_not] at this
        rw [← hhref, this]
  · rw [if_neg he, hpass]

/-- C10 at a document with two icon links. -/
theorem favicon_first_occurrence_witness :
    (extractMetadata twoIconsDoc {}).FaviconURL = "/a.ico" :=
  (favicon_first_occurrence twoIconsDoc {} rfl).trans (by decide)

/-- C10 as stated fails: the first icon link of the document has no href, and
FaviconURL is the href of a later icon link, not the (empty) href of the
first. -/
theorem favicon_first_occurrence_counterexample :
    ({} : Metadata).FaviconURL = "" ∧
      ((preorder emptyHrefIconDoc).find? isIconLink).map linkHref = some "" ∧
      (extractMetadata emptyHrefIconDoc {}).FaviconURL = "/b.ico" := by
  decide

/-! ## The remaining fields -/

theorem switchProperty_ImageURL (prop content : String) (m : Metadata) :
    (switchProperty prop content m).ImageURL =
      if prop = "og:image" then content else m.ImageURL := by
  unfold switchProperty
  by_cases h : prop = "og:image"
  · subst h; simp
  · split_ifs <;> rfl

theorem switchName_ImageURL (name content : String) (m : Metadata) :
    (switchName name content m).ImageURL = m.ImageURL := by
  unfold switchName; split_ifs <;> rfl

theorem linkBranch_ImageURL (attrs : List Attribute) (m : Metadata) :
    (linkBranch attrs m).ImageURL = m.ImageURL := by
  unfold linkBranch; simp only; split_ifs <;> rfl

theorem visit_ImageURL (m : Metadata) (n : Node) :
    (visit m n).ImageURL =
      if isMetaProperty "og:image" n then metaContent n else m.ImageURL := by
  rw [visit_eq]
  by_cases hm : isMetaElem n = true
  · simp [hm, metaBranch, switchName_ImageURL, switchProperty_ImageURL, isMetaProperty,
      metaContent]
  · by_cases hl : isLinkElem n = true
    · simp [hm, hl, linkBranch_ImageURL, isMetaProperty]
    · simp [hm, hl, isMetaProperty]

theorem extractMetaTags_ImageURL (t : Node) (m : Metadata) :
    (extractMetaTags t m).ImageURL =
      (lastContent (isMetaProperty "og:image") t).getD m.ImageURL := by
  rw [extractMetaTags_eq_foldl]
  exact foldl_last_wins visit Metadata.ImageURL _ metaContent visit_ImageURL _ m

theorem switchProperty_SiteName (prop content : String) (m : Metadata) :
    (switchProperty prop content m).SiteName =
      if prop = "og:site_name" then content else m.SiteName := by
  unfold switchProperty
  by_cases h : prop = "og:site_name"
  · subst h; simp
  · split_ifs <;> rfl

theorem switchName_SiteName (name content : String) (m : Metadata) :
    (switchName name content m).SiteName = m.SiteName := by
  unfold switchName; split_ifs <;> rfl

theorem linkBranch_SiteName (attrs : List Attribute) (m : Metadata) :
    (linkBranch attrs m).SiteName = m.SiteName := by
  unfold linkBranch; simp only; split_ifs <;> rfl

theorem visit_SiteName (m : Metadata) (n : Node) :
    (visit m n).SiteName =
      if isMetaProperty "og:site_name" n then metaContent n else m.SiteName := by
  rw [visit_eq]
  by_cases hm : isMetaElem n = true
  · simp [hm, metaBranch, switchName_SiteName, switchProperty_SiteName, isMetaProperty,
      metaContent]
  · by_cases hl : isLinkElem n = true
    · simp [hm, hl, linkBranch_SiteName, isMetaProperty]
    · simp [hm, hl, isMetaProperty]

theorem extractMetaTags_SiteName (t : Node) (m : Metadata) :
    (extractMetaTags t m).SiteName =
      (lastContent (isMetaProperty "og:site_name") t).getD m.SiteName := by
  rw [extractMetaTags_eq_foldl]
  exact foldl_last_wins visit Metadata.SiteName _ metaContent visit_SiteName _ m

theorem switchProperty_Typ (prop content : String) (m : Metadata) :
    (switchProperty prop content m).Typ =
      if prop = "og:type" then content else m.Typ := by
  unfold switchProperty
  by_cases h : prop = "og:type"
  · subst h; simp
  · split_ifs <;> rfl

theorem switchName_Typ (name content : String) (m : Metadata) :
    (switchName name content m).Typ = m.Typ := by
  unfold switchName; split_ifs <;> rfl

theorem linkBranch_Typ (attrs : List Attribute) (m : Metadata) :
    (linkBranch attrs m).Typ = m.Typ := by
  unfold linkBranch; simp only; split_ifs <;> rfl

theorem visit_Typ (m : Metadata) (n : Node) :
    (visit m n).Typ =
      if isMetaProperty "og:type" n then metaContent n else m.Typ := by
  rw [visit_eq]
  by_cases hm : isMetaElem n = true
  · simp [hm, metaBranch, switchName_Typ, switchProperty_Typ, isMetaProperty,
      metaContent]
  · by_cases hl : isLinkElem n = true
    · simp [hm, hl, linkBranch_Typ, isMetaProperty]
    · simp [hm, hl, isMetaProperty]

theorem extractMetaTags_Typ (t : Node) (m : Metadata) :
    (extractMetaTags t m).Typ =
      (lastContent (isMetaProperty "og:type") t).getD m.Typ := by
  rw [extractMetaTags_eq_foldl]
  exact foldl_last_wins visit Metadata.Typ _ metaContent visit_Typ _ m

theorem switchProperty_URL (prop content : String) (m : Metadata) :
    (switchProperty prop content m).URL = m.URL := by
  unfold switchProperty; split_ifs <;> rfl

theorem switchName_URL (name content : String) (m : Metadata) :
    (switchName name content m).URL = m.URL := by
  unfold switchName; split_ifs <;> rfl

theorem linkBranch_URL (attrs : List Attribute) (m : Metadata) :
    (linkBranch attrs m).URL = m.URL := by
  unfold linkBranch; simp only; split_ifs <;> rfl

theorem visit_URL (m : Metadata) (n : Node) : (visit m n).URL = m.URL := by
  rw [visit_eq]
  split_ifs
  · simp [metaBranch, switchName_URL, switchProperty_URL]
  · exact linkBranch_URL _ _
  · rfl

theorem extractMetaTags_URL (t : Node) (m : Metadata) :
    (extractMetaTags t m).URL = m.URL := by
  rw [extractMetaTags_eq_foldl]
  have h := foldl_last_wins visit Metadata.URL (fun _ => false) (fun _ => "")
    (fun s x => by simp [visit_URL]) (preorder t) m
  simpa using h

theorem extractMetadata_URL (t : Node) (m : Metadata) :
    (extractMetadata t m).URL = m.URL := by
  unfold extractMetadata
  simp only
  split_ifs <;> exact extractMetaTags_URL t m

/-- The fields that `resolveRelativeURLs` does not assign. -/
theorem resolveRelativeURLs_frame (baseURL : String) (m : Metadata) :
    resolveRelativeURLs baseURL m =
      { m with
        ImageURL := (resolveRelativeURLs baseURL m).ImageURL
        FaviconURL := (resolveRelativeURLs baseURL m).FaviconURL } := by
  unfold resolveRelativeURLs
  simp only
  split_ifs <;> rfl

/-- A pass over nodes that are neither meta nor link elements changes
nothing. -/
theorem foldl_visit_of_plain (l : List Node) (m : Metadata)
    (h : ∀ x ∈ l, isMetaElem x = false ∧ isLinkElem x = false) :
    l.foldl visit m = m := by
  induction l generalizing m with
  | nil => rfl
  | cons x xs ih =>
    have hx := h x (List.mem_cons_self _ _)
    rw [List.foldl_cons, visit_eq, hx.1, hx.2]
    exact ih m (fun y hy => h y (List.mem_cons_of_mem _ hy))

theorem extractTitle_of_no_title (t : Node)
    (h : ∀ x ∈ preorder t, isTitleElem x = false) : extractTitle t = "" := by
  have hhit : ∀ x ∈ preorder t, isTitleHit x = false := fun x hx => by
    simp [isTitleHit, h x hx]
  rw [extractTitle_eq_find t (fun x hx hx2 => by rw [hhit x hx] at hx2; cases hx2)]
  have : (preorder t).find? isTitleHit = none := by
    rw [List.find?_eq_none]
    intro x hx
    simp [hhit x hx]
  rw [this]
  rfl

theorem extractFavicon_of_no_link (t : Node)
    (h : ∀ x ∈ preorder t, isLinkElem x = false) : extractFavicon t = "" := by
  rcases extractFavicon_mem t with h0 | ⟨x, hx, hicon, _⟩
  · exact h0
  · have hl := h x hx
    simp only [isIconLink, isLinkElem, decide_eq_true_eq, decide_eq_false_iff_not,
      not_and] at hicon hl
    exact absurd hicon.2.1 (hl hicon.1)

theorem extractMetadata_Keywords (t : Node) (m : Metadata) :
    (extractMetadata t m).Keywords = (extractMetaTags t m).Keywords := by
  unfold extractMetadata
  simp only
  split_ifs <;> rfl

theorem resolveRelativeURLs_Keywords (baseURL : String) (m : Metadata) :
    (resolveRelativeURLs baseURL m).Keywords = m.Keywords := by
  rw [resolveRelativeURLs_frame]

theorem lastContent_of_exists (p : Node → Bool) (t : Node) (m : String)
    (h : ∃ x ∈ preorder t, p x = true) :
    some ((lastContent p t).getD m) = lastContent p t := by
  obtain ⟨e, he⟩ := filter_getLast?_isSome _ _ h
  simp [lastContent, he]

/-! ## Claims, continued -/

/-- C11: in a document with at least one og:title element, after
`extractMetaTags` Title is the content of the last such element in document
order, whatever Title held before; likewise og:image and ImageURL,
og:site_name and SiteName, og:type and Type. -/
theorem og_unconditional_overwrite (t : Node) (m : Metadata) :
    ((∃ x ∈ preorder t, isMetaProperty "og:title" x = true) →
        some (extractMetaTags t m).Title = lastContent (isMetaProperty "og:title") t) ∧
    ((∃ x ∈ preorder t, isMetaProperty "og:image" x = true) →
        some (extractMetaTags t m).ImageURL = lastContent (isMetaProperty "og:image") t) ∧
    ((∃ x ∈ preorder t, isMetaProperty "og:site_name" x = true) →
        some (extractMetaTags t m).SiteName
          = lastContent (isMetaProperty "og:site_name") t) ∧
    ((∃ x ∈ preorder t, isMetaProperty "og:type" x = true) →
        some (extractMetaTags t m).Typ = lastContent (isMetaProperty "og:type") t) := by
  refine ⟨fun h => ?_, fun h => ?_, fun h => ?_, fun h => ?_⟩
  · rw [extractMetaTags_Title]; exact lastContent_of_exists _ _ _ h
  · rw [extractMetaTags_ImageURL]; exact lastContent_of_exists _ _ _ h
  · rw [extractMetaTags_SiteName]; exact lastContent_of_exists _ _ _ h
  · rw [extractMetaTags_Typ]; exact lastContent_of_exists _ _ _ h

/-- C11 at a document with two elements of each kind and a record in which
every field was set before. -/
theorem og_unconditional_overwrite_witness :
    (extractMetaTags twoOgDoc fullRecord).Title = "Second" ∧
      (extractMetaTags twoOgDoc fullRecord).ImageURL = "/2.png" ∧
      (extractMetaTags twoOgDoc fullRecord).SiteName = "Site 2" ∧
      (extractMetaTags twoOgDoc fullRecord).Typ = "website" :=
  ⟨Option.some.inj (((og_unconditional_overwrite twoOgDoc fullRecord).1
      (by decide)).trans (by decide)),
    Option.some.inj (((og_unconditional_overwrite twoOgDoc fullRecord).2.1
      (by decide)).trans (by decide)),
    Option.some.inj (((og_unconditional_overwrite twoOgDoc fullRecord).2.2.1
      (by decide)).trans (by decide)),
    Option.some.inj (((og_unconditional_overwrite twoOgDoc fullRecord).2.2.2
      (by decide)).trans (by decide))⟩

/-- C12: for a document without meta, link and title elements and any source
URL, extraction followed by resolution on the fresh record returns the source
URL and every other field empty (Keywords: the nil slice). -/
theorem no_match_result (t : Node) (source : String)
    (h : ∀ x ∈ preorder t,
      isMetaElem x = false ∧ isLinkElem x = false ∧ isTitleElem x = false) :
    resolveRelativeURLs source (extractMetadata t { URL := source }) =
      { URL := source, Title := "", Description := "", SiteName := "",
        ImageURL := "", FaviconURL := "", Typ := "", Author := "",
        Keywords := none, Language := "" } := by
  have h1 : extractMetaTags t { URL := source } = { URL := source } := by
    rw [extractMetaTags_eq_foldl]
    exact foldl_visit_of_plain _ _ (fun x hx => ⟨(h x hx).1, (h x hx).2.1⟩)
  have h2 := extractTitle_of_no_title t (fun x hx => (h x hx).2.2)
  have h3 := extractFavicon_of_no_link t (fun x hx => (h x hx).2.1)
  have h4 : extractMetadata t { URL := source } = { URL := source } := by
    unfold extractMetadata
    simp [h1, h2, h3]
  rw [h4]
  unfold resolveRelativeURLs
  simp

/-- C12 at a document with a heading and a comment only. -/
theorem no_match_result_witness :
    resolveRelativeURLs "http://example.com"
        (extractMetadata plainDoc { URL := "http://example.com" }) =
      { URL := "http://example.com" } :=
  no_match_result plainDoc "http://example.com" (by decide)

/-- C13: `resolveRelativeURLs` leaves every field other than ImageURL and
FaviconURL unchanged, `extractMetadata` leaves URL unchanged, and so the URL of
the returned record is the requested URL. -/
theorem pipeline_frame (baseURL : String) (m : Metadata) (t : Node) :
    ((resolveRelativeURLs baseURL m).URL = m.URL ∧
      (resolveRelativeURLs baseURL m).Title = m.Title ∧
      (resolveRelativeURLs baseURL m).Description = m.Description ∧
      (resolveRelativeURLs baseURL m).SiteName = m.SiteName ∧
      (resolveRelativeURLs baseURL m).Typ = m.Typ ∧
      (resolveRelativeURLs baseURL m).Author = m.Author ∧
      (resolveRelativeURLs baseURL m).Keywords = m.Keywords ∧
      (resolveRelativeURLs baseURL m).Language = m.Language) ∧
    (extractMetadata t m).URL = m.URL ∧
    (resolveRelativeURLs baseURL (extractMetadata t { URL := baseURL })).URL
      = baseURL := by
  have hf := resolveRelativeURLs_frame baseURL m
  refine ⟨⟨?_, ?_, ?_, ?_, ?_, ?_, ?_, ?_⟩, extractMetadata_URL t m, ?_⟩
  · rw [hf]
  · rw [hf]
  · rw [hf]
  · rw [hf]
  · rw [hf]
  · rw [hf]
  · rw [hf]
  · rw [hf]
  · rw [resolveRelativeURLs_frame]
    exact extractMetadata_URL t _

/-- C14, as the code has it: for a document without name=keywords elements
the Keywords of the returned record is the nil slice, which has no elements;
no empty sequence is allocated. -/
theorem keywords_default (t : Node) (url : String)
    (h : ∀ x ∈ preorder t, isMetaName "keywords" x = false) :
    (resolveRelativeURLs url (extractMetadata t { URL := url })).Keywords = none ∧
      ((resolveRelativeURLs url (extractMetadata t { URL := url })).Keywords.getD
        []).length = 0 := by
  have hk : (resolveRelativeURLs url (extractMetadata t { URL := url })).Keywords
      = none := by
    rw [resolveRelativeURLs_Keywords, extractMetadata_Keywords,
      extractMetaTags_Keywords]
    have hnone : lastContent isKeywords t = none := by
      have hf : (preorder t).filter isKeywords = [] := by
        rw [List.filter_eq_nil_iff]
        intro x hx
        simp [isKeywords, h x hx]
      simp [lastContent, hf]
    rw [hnone]
  exact ⟨hk, by rw [hk]; rfl⟩

/-- C14 at the document of `TestFallbackTitle`. -/
theorem keywords_default_witness :
    (resolveRelativeURLs "http://example.com"
      (extractMetadata fallbackDoc { URL := "http://example.com" })).Keywords = none :=
  (keywords_default fallbackDoc "http://example.com" (by decide)).1

/-- C14 as stated fails: for a document without name=keywords elements the
Keywords of the returned record is not an empty sequence but nil. -/
theorem keywords_default_counterexample :
    (∀ x ∈ preorder fallbackDoc, isMetaName "keywords" x = false) ∧
      (resolveRelativeURLs "http://example.com"
        (extractMetadata fallbackDoc { URL := "http://example.com" })).Keywords
        ≠ some [] := by
  decide

theorem extractFavicon_of_pass_empty (t : Node) (m : Metadata)
    (h : (extractMetaTags t m).FaviconURL = "") : extractFavicon t = "" := by
  rw [extractMetaTags_FaviconURL] at h
  by_cases hm : m.FaviconURL = ""
  · rw [if_pos hm] at h
    have hnone : ∀ x ∈ preorder t, isIconLink x = true → linkHref x = "" := by
      intro x hx hicon
      cases hf : (preorder t).find? (fun x => isIconLink x && linkHref x != "") with
      | some y =>
        have hy := List.find?_some hf
        rw [hf] at h
        simp only [Option.map_some', Option.getD_some] at h
        simp [h] at hy
      | none =>
        rw [List.find?_eq_none] at hf
        have := hf x hx
        simpa [hicon] using this
    rcases extractFavicon_mem t with h0 | ⟨x, hx, hicon, hhref⟩
    · exact h0
    · rw [← hhref]
      exact hnone x hx hicon
  · rw [if_neg hm] at h
    exact absurd h hm

theorem GetWithContext_requestError (w : Transport) (url e : String)
    (h1 : w.NewRequest "GET" url = .error e) :
    GetWithContext w url = (none, some (.creatingRequest e)) := by
  simp [GetWithContext, h1]

theorem GetWithContext_fetchError (w : Transport) (url : String) (req : Request)
    (e : String) (h1 : w.NewRequest "GET" url = .ok req)
    (h2 : w.Do (setUserAgent req) = .error e) :
    GetWithContext w url = (none, some (.fetchingURL e)) := by
  simp [GetWithContext, h1, h2]

theorem GetWithContext_statusError (w : Transport) (url : String) (req : Request)
    (resp : Response) (h1 : w.NewRequest "GET" url = .ok req)
    (h2 : w.Do (setUserAgent req) = .ok resp) (h3 : resp.StatusCode ≠ 200) :
    GetWithContext w url = (none, some (.unexpectedStatusCode resp.StatusCode)) := by
  simp [GetWithContext, h1, h2, h3]

theorem GetWithContext_parseError (w : Transport) (url : String) (req : Request)
    (resp : Response) (e : String) (h1 : w.NewRequest "GET" url = .ok req)
    (h2 : w.Do (setUserAgent req) = .ok resp) (h3 : resp.StatusCode = 200)
    (h4 : w.Parse resp.Body = .error e) :
    GetWithContext w url = (none, some (.parsingHTML e)) := by
  simp [GetWithContext, h1, h2, h3, h4]

theorem GetWithContext_ok (w : Transport) (url : String) (req : Request)
    (resp : Response) (doc : Node) (h1 : w.NewRequest "GET" url = .ok req)
    (h2 : w.Do (setUserAgent req) = .ok resp) (h3 : resp.StatusCode = 200)
    (h4 : w.Parse resp.Body = .ok doc) :
    GetWithContext w url =
      (some (resolveRelativeURLs url (extractMetadata doc { URL := url })), none) := by
  simp [GetWithContext, h1, h2, h3, h4]

/-- The two shapes of a result of `GetWithContext`. -/
theorem GetWithContext_cases (w : Transport) (url : String) :
    (∃ e, GetWithContext w url = (none, some e)) ∨
    (∃ m, GetWithContext w url = (some m, none) ∧
      ∃ req resp doc, w.NewRequest "GET" url = .ok req ∧
        w.Do (setUserAgent req) = .ok resp ∧ resp.StatusCode = 200 ∧
        w.Parse resp.Body = .ok doc) := by
  cases h1 : w.NewRequest "GET" url with
  | error e1 => exact Or.inl ⟨_, GetWithContext_requestError w url e1 h1⟩
  | ok req =>
    cases h2 : w.Do (setUserAgent req) with
    | error e2 => exact Or.inl ⟨_, GetWithContext_fetchError w url req e2 h1 h2⟩
    | ok resp =>
      by_cases h3 : resp.StatusCode = 200
      · cases h4 : w.Parse resp.Body with
        | error e4 =>
          exact Or.inl ⟨_, GetWithContext_parseError w url req resp e4 h1 h2 h3 h4⟩
        | ok doc =>
          exact Or.inr ⟨_, GetWithContext_ok w url req resp doc h1 h2 h3 h4,
            req, resp, doc, rfl, h2, h3, h4⟩
      · exact Or.inl ⟨_, GetWithContext_statusError w url req resp h1 h2 h3⟩

/-- C15: with request construction, the response and parsing given by their
results, `GetWithContext` returns an error and no record when the request
cannot be built, the fetch fails, the status code is not 200 (the error carries
the code) or parsing fails; it returns a record and no error exactly when all
steps succeed with status 200, and the record is then `resolveRelativeURLs`
applied to the result of `extractMetadata` on the fresh record. -/
theorem get_failure_terminal (w : Transport) (url : String) :
    ((GetWithContext w url).2 ≠ none ↔ (GetWithContext w url).1 = none) ∧
    (∀ e, w.NewRequest "GET" url = .error e →
        GetWithContext w url = (none, some (.creatingRequest e))) ∧
    (∀ req e, w.NewRequest "GET" url = .ok req →
        w.Do (setUserAgent req) = .error e →
        GetWithContext w url = (none, some (.fetchingURL e))) ∧
    (∀ req resp, w.NewRequest "GET" url = .ok req →
        w.Do (setUserAgent req) = .ok resp → resp.StatusCode ≠ 200 →
        GetWithContext w url = (none, some (.unexpectedStatusCode resp.StatusCode))) ∧
    (∀ req resp e, w.NewRequest "GET" url = .ok req →
        w.Do (setUserAgent req) = .ok resp → resp.StatusCode = 200 →
        w.Parse resp.Body = .error e →
        GetWithContext w url = (none, some (.parsingHTML e))) ∧
    (∀ req resp doc, w.NewRequest "GET" url = .ok req →
        w.Do (setUserAgent req) = .ok resp → resp.StatusCode = 200 →
        w.Parse resp.Body = .ok doc →
        GetWithContext w url =
          (some (resolveRelativeURLs url (extractMetadata doc { URL := url })), none)) ∧
    ((GetWithContext w url).2 = none ↔
      ∃ req resp doc, w.NewRequest "GET" url = .ok req ∧
        w.Do (setUserAgent req) = .ok resp ∧ resp.StatusCode = 200 ∧
        w.Parse resp.Body = .ok doc) := by
  refine ⟨?_, fun e h1 => GetWithContext_requestError w url e h1,
    fun req e h1 h2 => GetWithContext_fetchError w url req e h1 h2,
    fun req resp h1 h2 h3 => GetWithContext_statusError w url req resp h1 h2 h3,
    fun req resp e h1 h2 h3 h4 => GetWithContext_parseError w url req resp e h1 h2 h3 h4,
    fun req resp doc h1 h2 h3 h4 => GetWithContext_ok w url req resp doc h1 h2 h3 h4,
    ?_⟩
  · rcases GetWithContext_cases w url with ⟨e, h⟩ | ⟨m, h, _⟩
    · rw [h]; simp
    · rw [h]; simp
  · constructor
    · intro hnone
      rcases GetWithContext_cases w url with ⟨e, h⟩ | ⟨m, h, hex⟩
      · rw [h] at hnone; simp at hnone
      · exact hex
    · rintro ⟨req, resp, doc, h1, h2, h3, h4⟩
      rw [GetWithContext_ok w url req resp doc h1 h2 h3 h4]

/-- C15 at a transport that succeeds, one that answers 404 and one whose
request cannot be built. -/
theorem get_failure_terminal_witness :
    GetWithContext okTransport "http://127.0.0.1:8080" =
        (some (resolveRelativeURLs "http://127.0.0.1:8080"
          (extractMetadata testDoc { URL := "http://127.0.0.1:8080" })), none) ∧
      GetWithContext notFoundTransport "http://127.0.0.1:8080" =
        (none, some (.unexpectedStatusCode 404)) ∧
      GetWithContext badURLTransport "http://[" =
        (none, some (.creatingRequest "invalid URL")) :=
  ⟨(get_failure_terminal okTransport "http://127.0.0.1:8080").2.2.2.2.2.1
      _ _ _ rfl rfl rfl rfl,
    (get_failure_terminal notFoundTransport "http://127.0.0.1:8080").2.2.2.1
      _ _ rfl rfl (by decide),
    (get_failure_terminal badURLTransport "http://[").2.1 _ rfl⟩

/-- C16: for every document and every initial record the FaviconURL after
`extractMetadata` is the FaviconURL after `extractMetaTags` alone; whenever
`extractMetaTags` leaves FaviconURL empty, `extractFavicon` returns the empty
string. -/
theorem favicon_third_pass_noop (t : Node) (m : Metadata) :
    (extractMetadata t m).FaviconURL = (extractMetaTags t m).FaviconURL ∧
      ((extractMetaTags t m).FaviconURL = "" → extractFavicon t = "") := by
  refine ⟨?_, extractFavicon_of_pass_empty t m⟩
  rw [extractMetadata_FaviconURL]
  by_cases h : (extractMetaTags t m).FaviconURL = ""
  · rw [if_pos h, extractFavicon_of_pass_empty t m h, h]
  · rw [if_neg h]

/-- C16 at a document whose only icon link has no href. -/
theorem favicon_third_pass_noop_witness :
    (extractMetaTags noHrefIconDoc {}).FaviconURL = "" ∧
      extractFavicon noHrefIconDoc = "" :=
  ⟨by decide, (favicon_third_pass_noop noHrefIconDoc {}).2 (by decide)⟩

/-- C17: for a document without og:description elements, `extractMetaTags`
started with an empty Description yields the content of the first
name=description element in document order whose content is not empty, and
the empty string when there is none; later elements do not change it. -/
theorem description_first_wins (t : Node) (m : Metadata)
    (hog : ∀ x ∈ preorder t, isMetaProperty "og:description" x = false)
    (hm : m.Description = "") :
    (extractMetaTags t m).Description = (firstContent isDescription t).getD "" := by
  rw [extractMetaTags_eq_foldl]
  exact foldl_Description_std _ m hog hm

/-- C17 at a document with three standard descriptions, the first one empty;
the author and language of a document with two of each are the last ones. -/
theorem description_first_wins_witness :
    (extractMetaTags threeDescriptionsDoc {}).Description = "Second" ∧
      (extractMetaTags twoAuthorsDoc {}).Author = "Second" ∧
      (extractMetaTags twoAuthorsDoc {}).Language = "th" :=
  ⟨(description_first_wins threeDescriptionsDoc {} (by decide) rfl).trans
      (by decide),
    by decide, by decide⟩

theorem cutAt_count (sep : Char) (l a r : List Char)
    (h : strings.cutAt sep l = some (a, r)) :
    l.count sep = r.count sep + 1 ∧ sep ∉ a := by
  obtain ⟨e, hn⟩ := cutAt_eq_some sep l a r h
  subst e
  refine ⟨?_, hn⟩
  simp [List.count_append, List.count_eq_zero_of_not_mem hn]

theorem genSplit_length (sep : Char) (n : Nat) :
    ∀ l : List Char, l.count sep ≤ n →
      (strings.genSplit sep (n + 1) l).length = l.count sep + 1 := by
  induction n with
  | zero =>
    intro l hl
    have : l.count sep = 0 := by omega
    simp [strings.genSplit, this]
  | succ k ih =>
    intro l hl
    unfold strings.genSplit
    cases h : strings.cutAt sep l with
    | none =>
      simp [List.count_eq_zero_of_not_mem (cutAt_eq_none sep l h)]
    | some q =>
      obtain ⟨a, r⟩ := q
      obtain ⟨hc, _⟩ := cutAt_count sep l a r h
      simp only [List.length_cons]
      rw [ih r (by omega), hc]

theorem genSplit_no_sep (sep : Char) (n : Nat) :
    ∀ l : List Char, l.count sep ≤ n →
      ∀ piece ∈ strings.genSplit sep (n + 1) l, sep ∉ piece := by
  induction n with
  | zero =>
    intro l hl piece hp
    have h0 : l.count sep = 0 := by omega
    simp only [strings.genSplit, List.mem_singleton] at hp
    rw [hp]
    exact List.count_eq_zero.1 h0
  | succ k ih =>
    intro l hl piece hp
    unfold strings.genSplit at hp
    cases h : strings.cutAt sep l with
    | none =>
      simp only [h, List.mem_singleton] at hp
      rw [hp]
      exact cutAt_eq_none sep l h
    | some q =>
      obtain ⟨a, r⟩ := q
      obtain ⟨hc, hn⟩ := cutAt_count sep l a r h
      simp only [h, List.mem_cons] at hp
      rcases hp with hp | hp
      · rw [hp]; exact hn
      · exact ih r (by omega) piece hp

/-- The shape of a trimmed string: its characters are characters of the
argument, and neither its first nor its last character is white space. -/
theorem TrimSpace_shape (s : String) :
    (∀ ch ∈ (strings.TrimSpace s).data, ch ∈ s.data) ∧
    (∀ ch, (strings.TrimSpace s).data.head? = some ch → strings.isSpace ch = false) ∧
    (∀ ch, (strings.TrimSpace s).data.getLast? = some ch →
      strings.isSpace ch = false) := by
  have hdata : (strings.TrimSpace s).data
      = ((s.data.dropWhile strings.isSpace).reverse.dropWhile strings.isSpace).reverse :=
    rfl
  have hpre : (strings.TrimSpace s).data <+: s.data.dropWhile strings.isSpace := by
    rw [hdata]
    exact List.rdropWhile_prefix strings.isSpace _
  refine ⟨?_, ?_, ?_⟩
  · intro ch hch
    exact (List.dropWhile_suffix strings.isSpace).mem (hpre.mem hch)
  · intro ch hch
    obtain ⟨r, hr⟩ := hpre
    have hhead : (s.data.dropWhile strings.isSpace).head? = some ch := by
      rw [← hr]
      cases hk : (strings.TrimSpace s).data with
      | nil => rw [hk] at hch; simp at hch
      | cons x xs =>
        rw [hk] at hch
        simpa using hch
    have := List.head?_dropWhile_not strings.isSpace s.data
    rw [hhead] at this
    simpa using this
  · intro ch hch
    rw [hdata, List.getLast?_reverse] at hch
    have := List.head?_dropWhile_not strings.isSpace
      (s.data.dropWhile strings.isSpace).reverse
    rw [hch] at this
    simpa using this

theorem splitKeywords_shape (c : String) :
    (splitKeywords c).length = c.data.count ',' + 1 ∧
    ∀ k ∈ splitKeywords c,
      ',' ∉ k.data ∧
      (∀ ch, k.data.head? = some ch → strings.isSpace ch = false) ∧
      (∀ ch, k.data.getLast? = some ch → strings.isSpace ch = false) := by
  constructor
  · simp only [splitKeywords, strings.Split, List.length_map]
    exact genSplit_length ',' _ _ (Nat.le_refl _)
  · intro k hk
    simp only [splitKeywords, strings.Split, List.map_map, List.mem_map,
      Function.comp_apply] at hk
    obtain ⟨piece, hp, rfl⟩ := hk
    have hno := genSplit_no_sep ',' _ _ (Nat.le_refl _) piece hp
    obtain ⟨h1, h2, h3⟩ := TrimSpace_shape (String.mk piece)
    exact ⟨fun hmem => hno (h1 _ hmem), h2, h3⟩

theorem resolveURL_self_or_http (baseURL v : String)
    (hb : strings.HasPrefix baseURL "http" = true) :
    resolveURL baseURL v = v ∨
      strings.HasPrefix (resolveURL baseURL v) "http" = true := by
  by_cases hv : strings.HasPrefix v "/" = true
  · by_cases hs : 3 ≤ (strings.SplitN baseURL '/' 4).length
    · exact Or.inr (resolveURL_HasPrefix_http baseURL v hb hs hv)
    · exact Or.inl (resolveURL_of_short baseURL v (by omega))
  · left
    unfold resolveURL
    rw [if_neg hv]

/-- Resolving one field twice is resolving it once. -/
theorem resolveField_idem (baseURL v : String)
    (hb : strings.HasPrefix baseURL "http" = true) :
    let f := fun u : String =>
      if u ≠ "" ∧ ¬ strings.HasPrefix u "http" then resolveURL baseURL u else u
    f (f v) = f v := by
  intro f
  by_cases hc : v ≠ "" ∧ ¬ strings.HasPrefix v "http"
  · have hfv : f v = resolveURL baseURL v := if_pos hc
    rcases resolveURL_self_or_http baseURL v hb with h | h
    · rw [hfv, h]
      exact hfv.trans h
    · rw [hfv]
      show (if resolveURL baseURL v ≠ "" ∧
          ¬ strings.HasPrefix (resolveURL baseURL v) "http" then _ else _) = _
      rw [if_neg (fun hh => hh.2 h)]
  · have hfv : f v = v := if_neg hc
    rw [hfv, hfv]

/-- C18: the Keywords that a name=keywords element with non-empty content `c`
leaves in the record have (number of "," in `c`) + 1 elements, none of which
contains "," or begins or ends with white space; elements may be empty, as in
"a,,b". -/
theorem keywords_shape (t : Node) (m : Metadata) (c : String)
    (h : lastContent isKeywords t = some c) :
    (∃ ks, (extractMetaTags t m).Keywords = some ks ∧
      ks.length = c.data.count ',' + 1 ∧
      ∀ k ∈ ks, ',' ∉ k.data ∧
        (∀ ch, k.data.head? = some ch → strings.isSpace ch = false) ∧
        (∀ ch, k.data.getLast? = some ch → strings.isSpace ch = false)) ∧
    splitKeywords "a,,b" = ["a", "", "b"] := by
  refine ⟨⟨splitKeywords c, ?_, (splitKeywords_shape c).1, (splitKeywords_shape c).2⟩,
    by decide⟩
  rw [extractMetaTags_Keywords, h]

/-- C18 at a keywords element with the content " a ,, b" and a tab. -/
theorem keywords_shape_witness :
    lastContent isKeywords keywordShapeDoc = some " a ,, b\t" ∧
      (extractMetaTags keywordShapeDoc {}).Keywords = some ["a", "", "b"] :=
  ⟨by decide, by
    obtain ⟨⟨ks, hks, _⟩, _⟩ :=
      keywords_shape keywordShapeDoc {} " a ,, b\t" (by decide)
    rw [hks]
    exact hks.symm.trans (by decide)⟩

/-- C19: for a base URL that begins with "http", applying
`resolveRelativeURLs` twice gives the record that applying it once gives; for
the base "/a/b/c", which does not begin with "http", and the image "/x" the
second application changes the record again. -/
theorem resolve_idempotent (baseURL : String) (m : Metadata)
    (hb : strings.HasPrefix baseURL "http" = true) :
    resolveRelativeURLs baseURL (resolveRelativeURLs baseURL m)
        = resolveRelativeURLs baseURL m ∧
      (strings.HasPrefix "/a/b/c" "http" = false ∧
        resolveRelativeURLs "/a/b/c" (resolveRelativeURLs "/a/b/c" slashImageRecord)
          ≠ resolveRelativeURLs "/a/b/c" slashImageRecord) := by
  refine ⟨?_, by decide, by decide⟩
  have hI : (resolveRelativeURLs baseURL (resolveRelativeURLs baseURL m)).ImageURL
      = (resolveRelativeURLs baseURL m).ImageURL := by
    rw [resolveRelativeURLs_ImageURL, resolveRelativeURLs_ImageURL]
    exact resolveField_idem baseURL m.ImageURL hb
  have hF : (resolveRelativeURLs baseURL (resolveRelativeURLs baseURL m)).FaviconURL
      = (resolveRelativeURLs baseURL m).FaviconURL := by
    rw [resolveRelativeURLs_FaviconURL, resolveRelativeURLs_FaviconURL]
    exact resolveField_idem baseURL m.FaviconURL hb
  rw [resolveRelativeURLs_frame baseURL (resolveRelativeURLs baseURL m), hI, hF]

/-- C19 at the base "http://example.com/a/b" and root-relative paths. -/
theorem resolve_idempotent_witness :
    resolveRelativeURLs "http://example.com/a/b"
        (resolveRelativeURLs "http://example.com/a/b" rootRelativeRecord)
      = resolveRelativeURLs "http://example.com/a/b" rootRelativeRecord ∧
    (resolveRelativeURLs "http://example.com/a/b" rootRelativeRecord).ImageURL
      = "http://example.com/img/a.png" :=
  ⟨(resolve_idempotent "http://example.com/a/b" rootRelativeRecord (by decide)).1,
    by decide⟩

end UrlMetadata
